import Mathlib

/-!
Verification development for the ConvexHull repository.

The repository implements (in several staged variants that share their code)
a 2D convex-hull service: a geometry kernel (`GeometryUtils.cpp`: monotone
chain convex hull over lexicographically sorted points plus the shoelace
area formula) and a line-oriented TCP command server (`Main.cpp` of
part4/part6/part7: commands `Newgraph`, `Newpoint`, `Removepoint`, `CH`,
with a single global upload session guarded by `waiting_for_graph` /
`newgraph_owner_fd`).

This file gives a shallow embedding of that code:

* C++ `double` coordinates are modelled as exact rationals (`ℚ`).  The
  algorithms only add, subtract, multiply, divide by powers of ten and
  compare, so the embedding is the exact-arithmetic reading of the code;
  IEEE rounding, overflow to infinity and the finite exponent range of
  `double` are not modelled.
* `std::deque<Point>` becomes `List Point`.  The hull-building deque is
  represented with its *back* at the head of the list (`push_back` is cons,
  `pop_back` is tail, `hull[size-1]` is the head, `hull[size-2]` the second
  element); the C++ deque in source order is therefore the reverse of the
  Lean list, and the final result is reversed back.
* `std::sort` with `Point::operator<` (strict lexicographic order) is
  modelled by `List.insertionSort` with the reflexive lexicographic order:
  because that order is total and antisymmetric on point *values*, the
  sorted sequence of values is unique, so any correct sorting algorithm
  (including the unstable `std::sort`) produces exactly this list.
* the C++ string handling (`std::istringstream` extraction, `std::stod`,
  `std::string::find`, `substr`, `erase`) is modelled over `List Char`.
-/

/-- 2D point, mirroring `struct Point { double x, y; }` of
`GeometryUtils.hpp` with exact rational coordinates. -/
structure Point where
  x : ℚ
  y : ℚ
deriving DecidableEq, Repr

/-- Reflexive lexicographic order on points.  `Point::operator<` of the
source is the strict order `x < x' || (x == x' && y < y')`; `lexLe` is its
reflexive closure, the order with respect to which `std::sort`'s output is
sorted. -/
def lexLe (a b : Point) : Prop :=
  a.x < b.x ∨ (a.x = b.x ∧ a.y ≤ b.y)

instance : DecidableRel lexLe := fun a b => by
  unfold lexLe; infer_instance

instance : IsTotal Point lexLe where
  total a b := by
    unfold lexLe
    rcases lt_trichotomy a.x b.x with h | h | h
    · exact Or.inl (Or.inl h)
    · rcases le_total a.y b.y with h' | h'
      · exact Or.inl (Or.inr ⟨h, h'⟩)
      · exact Or.inr (Or.inr ⟨h.symm, h'⟩)
    · exact Or.inr (Or.inl h)

instance : IsTrans Point lexLe where
  trans a b c hab hbc := by
    unfold lexLe at *
    rcases hab with h1 | ⟨h1, h1'⟩ <;> rcases hbc with h2 | ⟨h2, h2'⟩
    · exact Or.inl (h1.trans h2)
    · exact Or.inl (h2 ▸ h1)
    · exact Or.inl (h1 ▸ h2)
    · exact Or.inr ⟨h1.trans h2, h1'.trans h2'⟩

instance : IsAntisymm Point lexLe where
  antisymm a b hab hba := by
    unfold lexLe at *
    rcases hab with h1 | ⟨h1, h1'⟩ <;> rcases hba with h2 | ⟨h2, h2'⟩
    · exact absurd (h1.trans h2) (lt_irrefl _)
    · exact absurd h1 (h2 ▸ lt_irrefl _)
    · exact absurd h2 (h1 ▸ lt_irrefl _)
    · cases a; cases b
      simp only [Point.mk.injEq]
      exact ⟨h1, le_antisymm h1' h2'⟩

/-- Cross product of vectors OA and OB, the `cross` helper of
`GeometryUtils.cpp`: positive for a left turn, zero for collinear points,
negative for a right turn. -/
def cross (O A B : Point) : ℚ :=
  (A.x - O.x) * (B.y - O.y) - (A.y - O.y) * (B.x - O.x)

/-- The inner `while` loop of the monotone-chain construction: with the
chain stored back-first, pop the back while the chain still has at least
`t` elements (`hull.size() >= t`; the lower chain uses `t = 2`, matching
`hull.size() >= 2`) and the last two chain points together with the new
point `p` fail the strict left-turn test
(`cross(hull[size-2], hull.back(), p) <= 0`). -/
def popChain (t : Nat) (p : Point) : List Point → List Point
  | a :: b :: rest =>
    if t ≤ rest.length + 2 ∧ cross b a p ≤ 0 then popChain t p (b :: rest)
    else a :: b :: rest
  | s => s

/-- One `for` loop of the monotone-chain construction: fold the points into
the chain, each step popping with `popChain` and then pushing the point. -/
def buildChain (t : Nat) (acc : List Point) : List Point → List Point
  | [] => acc
  | p :: ps => buildChain t (p :: popChain t p acc) ps

/-- `compute_convex_hull_deque` of `part4/src/GeometryUtils.cpp` (the same
code appears in part1 — as the `std::vector` variant `compute_convex_hull`
— and in part3/part6/part7): inputs of size ≤ 1 are returned unchanged;
otherwise the points are sorted lexicographically, the lower chain is built
with threshold 2, the upper chain continues over the remaining points in
reverse (indices `n-2` down to `0`) with threshold `t = lower.size() + 1`,
and the duplicated closing point is removed by the final `pop_back`. -/
def compute_convex_hull_deque (points : List Point) : List Point :=
  if points.length ≤ 1 then points
  else
    let sorted := List.insertionSort lexLe points
    let lower := buildChain 2 [] sorted
    let full := buildChain (lower.length + 1) lower sorted.dropLast.reverse
    full.tail.reverse

/-- `compute_area` of `part4/src/GeometryUtils.cpp`: shoelace formula,
`for (i = 0; i < n; ++i) area += p[i].x * p[(i+1)%n].y - p[(i+1)%n].x * p[i].y`,
then `abs(area) / 2`.  For `n = 0` the loop body never runs (so the
`(i+1) % n` wrap-around index is never evaluated) and the result is `0`. -/
def compute_area (polygon : List Point) : ℚ :=
  let n := polygon.length
  let area := (List.range n).foldl
    (fun acc i =>
      let p1 := polygon.getD i ⟨0, 0⟩
      let p2 := polygon.getD ((i + 1) % n) ⟨0, 0⟩
      acc + (p1.x * p2.y - p2.x * p1.y)) 0
  |area| / 2

/-- `compute_area` of `part2/src/GeometryUtilsList.cpp` (the `std::list`
variant): it sums over adjacent iterator pairs and then unconditionally
adds the closing term `back().x * front().y - front().x * back().y`.
On the empty list, `std::next(polygon.begin())` and `polygon.back()` are
undefined behaviour — the embedding returns `none` for that case and the
computed area otherwise. -/
def compute_area_list (polygon : List Point) : Option ℚ :=
  match polygon with
  | [] => none
  | p :: rest =>
    let ps := p :: rest
    let pairsSum := (ps.zip ps.tail).foldl
      (fun acc pr => acc + (pr.1.x * pr.2.y - pr.2.x * pr.1.y)) 0
    let closing := (ps.getLast (by simp)).x * p.y - p.x * (ps.getLast (by simp)).y
    some (|pairsSum + closing| / 2)

example : compute_area [⟨0,0⟩, ⟨10,0⟩, ⟨10,10⟩, ⟨0,10⟩] = 100 := by
  simp [compute_area, List.range_succ]
  norm_num
example : compute_area [] = 0 := by simp [compute_area]
example : compute_area_list [] = none := rfl
example : compute_convex_hull_deque [⟨5,5⟩] = [⟨5,5⟩] := by norm_num [compute_convex_hull_deque]

/-! ### String handling

The command server works on `std::string`; the embedding uses `List Char`.
Rational values produced by parsing are built with `mkRat` from an integer
mantissa and a power-of-ten denominator, which is exactly the mathematical
value denoted by the decimal literal (see the header note on `double`). -/

/-- C-locale `isspace`, as used by `trim_crlf` and by `operator>>`'s
whitespace skipping: space, tab, newline, vertical tab, form feed,
carriage return. -/
def isSpaceChar (c : Char) : Bool :=
  c == ' ' || c == '\t' || c == '\n' || c == '\x0b' || c == '\x0c' || c == '\r'

/-- Decimal digit test. -/
def isDigitChar (c : Char) : Bool :=
  '0' ≤ c && c ≤ '9'

/-- Value of a list of decimal digits, most significant first. -/
def digitsToNat (ds : List Char) : Nat :=
  ds.foldl (fun a c => a * 10 + (c.toNat - 48)) 0

/-- `trim_crlf` of `Main.cpp` (part4/part6/part7): pop trailing `'\n'`/`'\r'`
characters from the back, then erase leading `isspace` characters from the
front. -/
def trim_crlf (s : List Char) : List Char :=
  ((s.reverse.dropWhile (fun c => c == '\n' || c == '\r')).reverse).dropWhile
    (fun c => isSpaceChar c)

/-- Splitting at the first comma: `line.find(',')` plus the two `substr`
calls of the point handlers; `none` models `std::string::npos` (no comma
found). -/
def splitComma (s : List Char) : Option (List Char × List Char) :=
  if (',' : Char) ∈ s then
    some (s.takeWhile (fun c => !(c == ',')), (s.dropWhile (fun c => !(c == ','))).tail)
  else none

/-- Digit-run part of `istringstream >> int`: at least one digit is
required, remaining characters are left unconsumed.  C++11 `num_get` sets
`failbit` when the value does not fit in `int`, making `(a >> n)` false, so
values outside the 32-bit range yield `none`. -/
def parseIntDigits (sgnNeg : Bool) (r : List Char) : Option (Int × List Char) :=
  let ds := r.takeWhile isDigitChar
  let rest := r.dropWhile isDigitChar
  if ds.isEmpty then none
  else
    let v := digitsToNat ds
    if sgnNeg then
      if v ≤ 2147483648 then some (-(v : Int), rest) else none
    else
      if v ≤ 2147483647 then some ((v : Int), rest) else none

/-- `istringstream >> int` as used by the `Newgraph` handler: skip leading
whitespace, optional sign, then a run of digits; everything after the
digits is left in the stream (the handler never checks `eof`, so leftover
characters are simply ignored). -/
def parseIntTok (s : List Char) : Option (Int × List Char) :=
  match s.dropWhile isSpaceChar with
  | '-' :: r => parseIntDigits true r
  | '+' :: r => parseIntDigits false r
  | r => parseIntDigits false r

/-- Exact rational value of a parsed decimal float: sign, mantissa digits
(integer and fractional part concatenated), number of fractional digits,
and decimal exponent. -/
def ratOfParts (neg : Bool) (mant : Nat) (fracLen : Nat) (e : Int) : ℚ :=
  let sm : Int := if neg then -(mant : Int) else (mant : Int)
  if 0 ≤ e then mkRat (sm * 10 ^ e.toNat) (10 ^ fracLen)
  else mkRat sm (10 ^ fracLen * 10 ^ (-e).toNat)

/-- Exponent part after the `e`/`E`: optional sign then at least one
digit. -/
def parseExpDigits (sgnNeg : Bool) (r : List Char) : Option (Int × List Char) :=
  let ds := r.takeWhile isDigitChar
  let rest := r.dropWhile isDigitChar
  if ds.isEmpty then none
  else some (if sgnNeg then -(digitsToNat ds : Int) else (digitsToNat ds : Int), rest)

/-- Exponent suffix of a float token.  When an `e`/`E` is present but not
followed by a well-formed exponent, the whole extraction fails, matching
the one-pass (no-pushback) behaviour of C++11 stream extraction. -/
def parseExpPart (r : List Char) : Option (Int × List Char) :=
  match r with
  | 'e' :: '-' :: r1 => parseExpDigits true r1
  | 'e' :: '+' :: r1 => parseExpDigits false r1
  | 'e' :: r1 => parseExpDigits false r1
  | 'E' :: '-' :: r1 => parseExpDigits true r1
  | 'E' :: '+' :: r1 => parseExpDigits false r1
  | 'E' :: r1 => parseExpDigits false r1
  | _ => some (0, r)

/-- Unsigned decimal float: `digits [. digits]` or `. digits`, followed by
an optional exponent.  A bare `digits.` (empty fraction) is accepted, as by
`strtod`.  Hexadecimal floats and the `inf`/`nan` spellings are not
modelled (no claim depends on them). -/
def parseUDouble (neg : Bool) (r : List Char) : Option (ℚ × List Char) :=
  let ip := r.takeWhile isDigitChar
  let r1 := r.dropWhile isDigitChar
  match r1 with
  | '.' :: r2 =>
    let fp := r2.takeWhile isDigitChar
    let r3 := r2.dropWhile isDigitChar
    if ip.isEmpty && fp.isEmpty then none
    else
      match parseExpPart r3 with
      | none => none
      | some (e, rest) => some (ratOfParts neg (digitsToNat (ip ++ fp)) fp.length e, rest)
  | _ =>
    if ip.isEmpty then none
    else
      match parseExpPart r1 with
      | none => none
      | some (e, rest) => some (ratOfParts neg (digitsToNat ip) 0 e, rest)

/-- `istringstream >> double` (and the leading-token part of `std::stod`):
skip whitespace, optional sign, unsigned float. -/
def parseDoubleTok (s : List Char) : Option (ℚ × List Char) :=
  match s.dropWhile isSpaceChar with
  | '-' :: r => parseUDouble true r
  | '+' :: r => parseUDouble false r
  | r => parseUDouble false r

/-- `is_number` of `Main.cpp`: `(iss >> d) && iss.eof()` — the extraction
must succeed and consume the entire string (any leftover character,
including trailing whitespace, leaves `eof()` false). -/
def is_number (s : List Char) : Bool :=
  match parseDoubleTok s with
  | some (_, rest) => rest.isEmpty
  | none => false

/-- `std::stod`: value of the leading float token.  In the server it is
only ever called after `is_number` succeeded, so the token spans the whole
string; the fallback value for unparsable input is irrelevant. -/
def stodQ (s : List Char) : ℚ :=
  match parseDoubleTok s with
  | some (q, _) => q
  | none => 0

/-- `iss >> command`: skip leading whitespace, take the maximal run of
non-whitespace characters; the rest of the line (as read afterwards by
`getline`) is returned as the second component. -/
def firstTok (s : List Char) : List Char × List Char :=
  let s1 := s.dropWhile isSpaceChar
  (s1.takeWhile (fun c => !isSpaceChar c), s1.dropWhile (fun c => !isSpaceChar c))

/-- Decimal digits of a natural number, most significant first. -/
def natRepr (n : Nat) : List Char :=
  if _h : n < 10 then [Char.ofNat (48 + n)]
  else natRepr (n / 10) ++ [Char.ofNat (48 + n % 10)]
decreasing_by exact Nat.div_lt_self (by omega) (by norm_num)

/-- Models `std::ostringstream << area` for the `CH` response.  The exact
C++ text of a printed `double` (six significant digits, scientific
notation, …) is not modelled; the embedding renders the exact rational
(`num` or `num/den`).  The only facts the claims rely on are that the
response is a function of the area value and is never the empty string. -/
def renderArea (q : ℚ) : String :=
  String.mk ((if q.num < 0 then ['-'] else []) ++ natRepr q.num.natAbs ++
    (if q.den = 1 then [] else '/' :: natRepr q.den))

/-! ### The command server

Shared state and line processing of the select-based server in
`part4/main/Main.cpp` (the same `process_line` appears in
`part6/main/Main.cpp` and `part7/main/Main.cpp`). -/

/-- The global server state of `Main.cpp`: `point_set`, `temp_points`,
`waiting_for_graph`, `points_to_read` (a C++ `int`; all values reachable
here are small) and `newgraph_owner_fd`. -/
structure ServerState where
  point_set : List Point
  temp_points : List Point
  waiting_for_graph : Bool
  points_to_read : Int
  newgraph_owner_fd : Int
deriving DecidableEq, Repr

/-- Initial values of the globals: empty graph, no pending upload, owner
descriptor `-1`. -/
def initState : ServerState :=
  { point_set := [], temp_points := [], waiting_for_graph := false,
    points_to_read := 0, newgraph_owner_fd := -1 }

/-- `handle_point_line` of `Main.cpp` (part4 select server, lines 261-279):
split at the first comma, validate both halves with `is_number`, append the
point to `temp_points` and decrement `points_to_read`; when the counter
hits zero, replace `point_set` wholesale by `temp_points`, clear the
session and answer `GRAPH_LOADED`, otherwise answer `OK`. -/
def handle_point_line (line : List Char) (st : ServerState) : ServerState × String :=
  match splitComma line with
  | none => (st, "ERROR: Invalid point format.")
  | some (xs, ys) =>
    if is_number xs && is_number ys then
      let p : Point := ⟨stodQ xs, stodQ ys⟩
      let temp' := st.temp_points ++ [p]
      let ptr' := st.points_to_read - 1
      if ptr' = 0 then
        ({ st with point_set := temp', temp_points := [], waiting_for_graph := false,
                   points_to_read := ptr', newgraph_owner_fd := -1 }, "GRAPH_LOADED")
      else
        ({ st with temp_points := temp', points_to_read := ptr' }, "OK")
    else (st, "ERROR: Invalid point values.")

/-- `handle_newpoint` of `Main.cpp`: parse `x,y`, append to `point_set`. -/
def handle_newpoint (args : List Char) (st : ServerState) : ServerState × String :=
  match splitComma args with
  | none => (st, "ERROR: Invalid format.")
  | some (xs, ys) =>
    if is_number xs && is_number ys then
      let p : Point := ⟨stodQ xs, stodQ ys⟩
      ({ st with point_set := st.point_set ++ [p] }, "OK")
    else (st, "ERROR: Invalid values.")

/-- `handle_removepoint` of `Main.cpp` (part4 select server, lines
304-315): parse `x,y`, then `std::remove_if`/`erase` every stored point
whose coordinates are exactly equal to the parsed ones; answers `OK`
whether or not anything matched. -/
def handle_removepoint (args : List Char) (st : ServerState) : ServerState × String :=
  match splitComma args with
  | none => (st, "ERROR: Invalid format.")
  | some (xs, ys) =>
    if is_number xs && is_number ys then
      let p : Point := ⟨stodQ xs, stodQ ys⟩
      ({ st with point_set := st.point_set.filter (fun q => !(q.x == p.x && q.y == p.y)) }, "OK")
    else (st, "ERROR: Invalid values.")

/-- `handle_ch` of `Main.cpp`: hull of the current `point_set`, its area,
rendered as text. -/
def handle_ch (st : ServerState) : String :=
  renderArea (compute_area (compute_convex_hull_deque st.point_set))

/-- `process_line` of `Main.cpp` (part4 select server, lines 337-374; the
code in part6 lines 153-190 and part7 lines 148-185 is identical): trim the
raw line; empty lines get no response; a non-owner during an active upload
gets `BUSY`; the owner's lines are consumed as point contributions; else
the first token is dispatched as a command, with `Newgraph <n>` accepting
any argument whose leading token parses as a positive `int` (no `eof`
check). -/
def process_line (fd : Int) (rawline : List Char) (st : ServerState) : ServerState × String :=
  let line := trim_crlf rawline
  if line.isEmpty then (st, "")
  else if st.waiting_for_graph = true ∧ fd ≠ st.newgraph_owner_fd then (st, "BUSY")
  else if st.waiting_for_graph = true ∧ fd = st.newgraph_owner_fd then
    handle_point_line line st
  else
    let command := (firstTok line).1
    let args := (firstTok line).2.dropWhile (fun c => c == ' ')
    if command = "Newgraph".toList then
      match parseIntTok args with
      | none => (st, "ERROR: Invalid number.")
      | some (n, _) =>
        if n ≤ 0 then (st, "ERROR: Invalid number.")
        else ({ st with waiting_for_graph := true, newgraph_owner_fd := fd,
                        points_to_read := n, temp_points := [] }, "OK")
    else if command = "Newpoint".toList then handle_newpoint args st
    else if command = "Removepoint".toList then handle_removepoint args st
    else if command = "CH".toList then (st, handle_ch st)
    else (st, "ERROR: Unknown command.")

/-- Owner-disconnect cleanup of `Main.cpp` (part4 select server, lines
421-430; `handle_client` of part6, lines 203-215): when the disconnecting
descriptor owns the pending upload, reset `waiting_for_graph`, clear
`temp_points` and the owner; `points_to_read` is left stale, and nothing
else changes. -/
def handle_disconnect (fd : Int) (st : ServerState) : ServerState :=
  if st.waiting_for_graph = true ∧ fd = st.newgraph_owner_fd then
    { st with waiting_for_graph := false, temp_points := [], newgraph_owner_fd := -1 }
  else st

/-- Consecutive complete lines from one connection, processed in arrival
order as by the per-connection `while ((pos = inbuf.find('\n')) ...)` loop;
returns the final state and the response of every line. -/
def runLines (fd : Int) (ls : List (List Char)) (st : ServerState) : ServerState × List String :=
  match ls with
  | [] => (st, [])
  | l :: rest =>
    let r1 := process_line fd l st
    let r2 := runLines fd rest r1.1
    (r2.1, r1.2 :: r2.2)

/-- Externally visible events that mutate the shared state: a complete
line arriving from a connection, or a connection closing. -/
inductive Event where
  | line (fd : Int) (raw : List Char)
  | disc (fd : Int)

/-- Effect of one event on the shared state. -/
def stepEvent (st : ServerState) (e : Event) : ServerState :=
  match e with
  | .line fd raw => (process_line fd raw st).1
  | .disc fd => handle_disconnect fd st

/-- State after a sequence of events, starting from the initial globals. -/
def runEvents (es : List Event) : ServerState :=
  es.foldl stepEvent initState

/-- A state the server can actually be in. -/
def Reachable (st : ServerState) : Prop :=
  ∃ es : List Event, runEvents es = st

/-- Point lines the upload session accepts: after trimming, the line has a
comma and both halves pass `is_number`. -/
def ValidPointLine (l : List Char) : Bool :=
  match splitComma (trim_crlf l) with
  | some (xs, ys) => is_number xs && is_number ys
  | none => false

/-- The point a valid point line denotes. -/
def parsePointLine (l : List Char) : Point :=
  match splitComma (trim_crlf l) with
  | some (xs, ys) => ⟨stodQ xs, stodQ ys⟩
  | none => ⟨0, 0⟩

example : (process_line 3 "Newgraph 2\n".toList initState) =
    ({ point_set := [], temp_points := [], waiting_for_graph := true,
       points_to_read := 2, newgraph_owner_fd := 3 }, "OK") := by decide
example : (process_line 4 "CH\n".toList
    { initState with waiting_for_graph := true, newgraph_owner_fd := 3, points_to_read := 2 }).2
    = "BUSY" := by decide
example : (process_line 3 "Nonsense\n".toList initState).2 = "ERROR: Unknown command." := by decide
example : is_number "1.5".toList = true := by decide
example : is_number "1.5abc".toList = false := by decide
example : is_number " -2.5e3".toList = true := by decide
example : is_number "1.5 ".toList = false := by decide
example : stodQ "2.5".toList = mkRat 5 2 := by decide
example : stodQ "1".toList = (1 : ℚ) := by decide
example : stodQ "-0.5e1".toList = mkRat (-5) 1 := by decide
example : parsePointLine "1,2\n".toList = ⟨1, 2⟩ := by decide

/-! ### Basic server lemmas -/

/-- A line with a comma is nonempty. -/
lemma splitComma_ne_nil {l : List Char} {xs ys : List Char}
    (h : splitComma l = some (xs, ys)) : l ≠ [] := by
  intro hnil
  subst hnil
  simp [splitComma] at h

/-- `natRepr` always produces at least one character. -/
lemma natRepr_ne_nil (n : Nat) : natRepr n ≠ [] := by
  rw [natRepr]
  split
  · simp
  · simp

/-- The modelled `CH` response is never the empty string. -/
lemma renderArea_ne_empty (q : ℚ) : renderArea q ≠ "" := by
  unfold renderArea
  intro h
  have h' : ((if q.num < 0 then ['-'] else []) ++ natRepr q.num.natAbs ++
      (if q.den = 1 then [] else '/' :: natRepr q.den)) = ([] : List Char) := by
    have := congrArg String.data h
    simpa using this
  rcases List.append_eq_nil.mp h' with ⟨h1, _⟩
  rcases List.append_eq_nil.mp h1 with ⟨_, h3⟩
  exact natRepr_ne_nil _ h3

/-- Responses of the in-session point handler are never empty. -/
lemma handle_point_line_ne_empty (line : List Char) (st : ServerState) :
    (handle_point_line line st).2 ≠ "" := by
  unfold handle_point_line
  split <;> try simp
  split
  · split <;> simp
  · simp

/-- Responses of `Newpoint` are never empty. -/
lemma handle_newpoint_ne_empty (args : List Char) (st : ServerState) :
    (handle_newpoint args st).2 ≠ "" := by
  unfold handle_newpoint
  split <;> try simp
  split <;> simp

/-- Responses of `Removepoint` are never empty. -/
lemma handle_removepoint_ne_empty (args : List Char) (st : ServerState) :
    (handle_removepoint args st).2 ≠ "" := by
  unfold handle_removepoint
  split <;> try simp
  split <;> simp

/-- C6: for every complete input line, `process_line` produces exactly one
response, and that response is empty (meaning: nothing is sent back)
precisely when the line is empty after trimming; parse errors, unknown
commands and busy rejections all produce a nonempty response. -/
theorem c6_one_response_per_line (fd : Int) (raw : List Char) (st : ServerState) :
    (process_line fd raw st).2 = "" ↔ trim_crlf raw = [] := by
  unfold process_line
  constructor
  · intro h
    by_contra hne
    rw [if_neg (by simpa using hne)] at h
    revert h
    split
    · simp
    · split
      · exact handle_point_line_ne_empty _ _
      · dsimp only
        split
        · split
          · simp
          · split <;> simp
        · split
          · exact handle_newpoint_ne_empty _ _
          · split
            · exact handle_removepoint_ne_empty _ _
            · split
              · exact renderArea_ne_empty _
              · simp
  · intro h
    rw [if_pos (by simpa using h)]

/-- C2: while an upload owned by another connection is active, every
complete line that is nonempty after trimming — whatever command it
contains — gets exactly the response `BUSY`, and the state (PointSet,
session buffer, remaining count, owner) is returned unchanged. -/
theorem c2_busy_rejection (st : ServerState) (fdB : Int) (raw : List Char)
    (hw : st.waiting_for_graph = true) (hother : fdB ≠ st.newgraph_owner_fd)
    (hne : trim_crlf raw ≠ []) :
    process_line fdB raw st = (st, "BUSY") := by
  unfold process_line
  rw [if_neg (by simpa using hne), if_pos ⟨hw, hother⟩]

/-- Witness for C2: a second connection (fd 4) sending `CH` while fd 3 has
an upload of 2 points pending is rejected with `BUSY` and the state is
untouched. -/
theorem c2_busy_rejection_witness :
    process_line 4 "CH\n".toList
        { point_set := [⟨1, 1⟩], temp_points := [⟨2, 2⟩], waiting_for_graph := true,
          points_to_read := 2, newgraph_owner_fd := 3 } =
      ({ point_set := [⟨1, 1⟩], temp_points := [⟨2, 2⟩], waiting_for_graph := true,
          points_to_read := 2, newgraph_owner_fd := 3 }, "BUSY") :=
  c2_busy_rejection _ 4 _ rfl (by decide) (by decide)

/-- Shared helper: with no upload pending, a line whose first token is
`Newgraph` and whose argument's leading token parses as a positive `int`
is accepted — response `OK`, upload mode entered for `n` points with the
sender as owner and a cleared buffer — regardless of any characters left
over after the parsed integer. -/
lemma newgraph_accepted (st : ServerState) (fd : Int) (raw : List Char) (n : Int) (r : List Char)
    (hw : st.waiting_for_graph = false)
    (hne : trim_crlf raw ≠ [])
    (hcmd : (firstTok (trim_crlf raw)).1 = "Newgraph".toList)
    (hparse : parseIntTok ((firstTok (trim_crlf raw)).2.dropWhile (fun c => c == ' ')) = some (n, r))
    (hpos : 0 < n) :
    process_line fd raw st =
      ({ st with waiting_for_graph := true, newgraph_owner_fd := fd,
                 points_to_read := n, temp_points := [] }, "OK") := by
  unfold process_line
  rw [if_neg (by simpa using hne),
      if_neg (by simp [hw]), if_neg (by simp [hw])]
  dsimp only
  rw [if_pos hcmd, hparse]
  dsimp only
  rw [if_neg (by omega)]

/-- Shared helper: with no upload pending, a `Newgraph` line whose argument
has no leading `int` token at all is rejected with `ERROR: Invalid number.`
and no state change. -/
lemma newgraph_rejected_none (st : ServerState) (fd : Int) (raw : List Char)
    (hw : st.waiting_for_graph = false)
    (hne : trim_crlf raw ≠ [])
    (hcmd : (firstTok (trim_crlf raw)).1 = "Newgraph".toList)
    (hparse : parseIntTok ((firstTok (trim_crlf raw)).2.dropWhile (fun c => c == ' ')) = none) :
    process_line fd raw st = (st, "ERROR: Invalid number.") := by
  unfold process_line
  rw [if_neg (by simpa using hne),
      if_neg (by simp [hw]), if_neg (by simp [hw])]
  dsimp only
  rw [if_pos hcmd, hparse]

/-- Shared helper: with no upload pending, a `Newgraph` line whose argument
parses to a non-positive `int` is rejected with `ERROR: Invalid number.`
and no state change. -/
lemma newgraph_rejected_nonpos (st : ServerState) (fd : Int) (raw : List Char) (n : Int) (r : List Char)
    (hw : st.waiting_for_graph = false)
    (hne : trim_crlf raw ≠ [])
    (hcmd : (firstTok (trim_crlf raw)).1 = "Newgraph".toList)
    (hparse : parseIntTok ((firstTok (trim_crlf raw)).2.dropWhile (fun c => c == ' ')) = some (n, r))
    (hnonpos : n ≤ 0) :
    process_line fd raw st = (st, "ERROR: Invalid number.") := by
  unfold process_line
  rw [if_neg (by simpa using hne),
      if_neg (by simp [hw]), if_neg (by simp [hw])]
  dsimp only
  rw [if_pos hcmd, hparse]
  dsimp only
  rw [if_pos hnonpos]

/-- Counterexample for C7 as frozen: the claim asserts that an argument
with leftover characters after the integer is a parse failure answered
with `ERROR: Invalid number.` and no state mutation, but the `Newgraph`
handler never checks `eof`, so `Newgraph 3x` is accepted: the response is
`OK` (not the claimed error) and the server enters upload mode for 3
points. -/
theorem c7_counterexample :
    (process_line 0 "Newgraph 3x\n".toList initState).2 = "OK" ∧
    (process_line 0 "Newgraph 3x\n".toList initState).2 ≠ "ERROR: Invalid number." ∧
    (process_line 0 "Newgraph 3x\n".toList initState).1 ≠ initState := by
  refine ⟨by decide, by decide, by decide⟩

/-- C7 (amended): `Newgraph` is accepted — response `OK`, upload mode
entered for `n` points — exactly when an `int` can be parsed from the
front of its argument (after optional whitespace and sign) and that value
is positive; characters left over after the parsed integer are ignored
rather than rejected.  When no integer can be parsed (`abc`, empty) or the
value is non-positive (`-1`, `0`), the response is `ERROR: Invalid
number.` and the state is returned unchanged. -/
theorem c7_newgraph_validation (st : ServerState) (fd : Int) (raw : List Char)
    (hw : st.waiting_for_graph = false)
    (hne : trim_crlf raw ≠ [])
    (hcmd : (firstTok (trim_crlf raw)).1 = "Newgraph".toList) :
    (∀ n r, parseIntTok ((firstTok (trim_crlf raw)).2.dropWhile (fun c => c == ' ')) = some (n, r) →
      0 < n →
      process_line fd raw st =
        ({ st with waiting_for_graph := true, newgraph_owner_fd := fd,
                   points_to_read := n, temp_points := [] }, "OK")) ∧
    (∀ n r, parseIntTok ((firstTok (trim_crlf raw)).2.dropWhile (fun c => c == ' ')) = some (n, r) →
      n ≤ 0 → process_line fd raw st = (st, "ERROR: Invalid number.")) ∧
    (parseIntTok ((firstTok (trim_crlf raw)).2.dropWhile (fun c => c == ' ')) = none →
      process_line fd raw st = (st, "ERROR: Invalid number.")) :=
  ⟨fun n r hp hpos => newgraph_accepted st fd raw n r hw hne hcmd hp hpos,
   fun n r hp hnp => newgraph_rejected_nonpos st fd raw n r hw hne hcmd hp hnp,
   fun hp => newgraph_rejected_none st fd raw hw hne hcmd hp⟩

/-- Witness for C7 (amended): `Newgraph 5` from fd 7 on the initial state
is accepted, and `Newgraph -1` and `Newgraph abc` are rejected without
state change. -/
theorem c7_newgraph_validation_witness :
    process_line 7 "Newgraph 5\n".toList initState =
      ({ point_set := [], temp_points := [], waiting_for_graph := true,
         points_to_read := 5, newgraph_owner_fd := 7 }, "OK") ∧
    process_line 7 "Newgraph -1\n".toList initState = (initState, "ERROR: Invalid number.") ∧
    process_line 7 "Newgraph abc\n".toList initState = (initState, "ERROR: Invalid number.") := by
  refine ⟨((c7_newgraph_validation initState 7 _ rfl (by decide) (by decide)).1
      5 [] (by decide) (by decide)).trans (by decide),
    ((c7_newgraph_validation initState 7 _ rfl (by decide) (by decide)).2.1
      (-1) [] (by decide) (by decide)),
    ((c7_newgraph_validation initState 7 _ rfl (by decide) (by decide)).2.2 (by decide))⟩

/-- Lines accepted as a `Newgraph` command with a positive count (used to
state that a later `Newgraph` succeeds). -/
def acceptsNewgraph (raw : List Char) : Bool :=
  !(trim_crlf raw).isEmpty &&
  ((firstTok (trim_crlf raw)).1 == "Newgraph".toList) &&
  (match parseIntTok ((firstTok (trim_crlf raw)).2.dropWhile (fun c => c == ' ')) with
   | some (n, _) => decide (0 < n)
   | none => false)

/-- C3: when the connection owning an in-progress upload disconnects, the
cleanup keeps `point_set` at exactly its prior value, discards the session
buffer and ownership (`waiting_for_graph` false, `temp_points` empty,
owner `-1`), and afterwards a `Newgraph` line with a positive count from
any connection is answered `OK`. -/
theorem c3_owner_disconnect (st : ServerState) (fdA : Int)
    (hw : st.waiting_for_graph = true) (hown : st.newgraph_owner_fd = fdA) :
    (handle_disconnect fdA st).point_set = st.point_set ∧
    (handle_disconnect fdA st).waiting_for_graph = false ∧
    (handle_disconnect fdA st).temp_points = [] ∧
    (handle_disconnect fdA st).newgraph_owner_fd = -1 ∧
    ∀ (fdB : Int) (raw : List Char), acceptsNewgraph raw = true →
      (process_line fdB raw (handle_disconnect fdA st)).2 = "OK" := by
  have hd : handle_disconnect fdA st =
      { st with waiting_for_graph := false, temp_points := [], newgraph_owner_fd := -1 } := by
    unfold handle_disconnect
    rw [if_pos ⟨hw, hown.symm⟩]
  refine ⟨by rw [hd], by rw [hd], by rw [hd], by rw [hd], ?_⟩
  intro fdB raw hacc
  unfold acceptsNewgraph at hacc
  simp only [Bool.and_eq_true, Bool.not_eq_true', beq_iff_eq] at hacc
  obtain ⟨⟨hne, hcmd⟩, hn⟩ := hacc
  rcases hp : parseIntTok ((firstTok (trim_crlf raw)).2.dropWhile (fun c => c == ' ')) with _ | ⟨n, r⟩
  · rw [hp] at hn; simp at hn
  · rw [hp] at hn
    simp only [decide_eq_true_eq] at hn
    rw [newgraph_accepted (handle_disconnect fdA st) fdB raw n r (by rw [hd])
      (by simpa [List.isEmpty_iff] using hne) hcmd hp hn]

/-- Witness for C3: fd 3 owns a pending 3-point upload with one point
buffered; its disconnect restores the prior PointSet, clears the session,
and a later `Newgraph 4` from fd 8 answers `OK`. -/
theorem c3_owner_disconnect_witness :
    (handle_disconnect 3 ⟨[⟨1, 1⟩], [⟨2, 2⟩], true, 2, 3⟩).point_set = [⟨1, 1⟩] ∧
    (handle_disconnect 3 ⟨[⟨1, 1⟩], [⟨2, 2⟩], true, 2, 3⟩).waiting_for_graph = false ∧
    (process_line 8 "Newgraph 4\n".toList
      (handle_disconnect 3 ⟨[⟨1, 1⟩], [⟨2, 2⟩], true, 2, 3⟩)).2 = "OK" := by
  have h := c3_owner_disconnect ⟨[⟨1, 1⟩], [⟨2, 2⟩], true, 2, 3⟩ 3 rfl rfl
  exact ⟨h.1, h.2.1, h.2.2.2.2 8 _ (by decide)⟩

/-- C8: with no upload pending, a `Removepoint x,y` line whose two halves
are valid floats removes every stored point whose coordinates are exactly
equal to the parsed pair — not just the first match — and answers `OK`
even when nothing matched, in which case the PointSet is unchanged.
Equality is exact equality of the parsed coordinate values (no epsilon). -/
theorem c8_removepoint_all_matches (st : ServerState) (fd : Int) (raw : List Char)
    (xs ys : List Char)
    (hw : st.waiting_for_graph = false)
    (hcmd : (firstTok (trim_crlf raw)).1 = "Removepoint".toList)
    (hsplit : splitComma ((firstTok (trim_crlf raw)).2.dropWhile (fun c => c == ' '))
      = some (xs, ys))
    (hx : is_number xs = true) (hy : is_number ys = true) :
    process_line fd raw st =
      ({ st with point_set :=
          st.point_set.filter (fun q => !(q.x == stodQ xs && q.y == stodQ ys)) }, "OK") ∧
    ((∀ q ∈ st.point_set, ¬(q.x = stodQ xs ∧ q.y = stodQ ys)) →
      (process_line fd raw st).1 = st) := by
  have hne : trim_crlf raw ≠ [] := by
    intro h0
    rw [h0] at hcmd
    simp [firstTok] at hcmd
  have hmain : process_line fd raw st =
      ({ st with point_set :=
          st.point_set.filter (fun q => !(q.x == stodQ xs && q.y == stodQ ys)) }, "OK") := by
    unfold process_line
    rw [if_neg (by simpa using hne),
        if_neg (by simp [hw]), if_neg (by simp [hw])]
    dsimp only
    rw [if_neg ?hng, if_neg ?hnp, if_pos hcmd]
    case hng =>
      rw [hcmd]; decide
    case hnp =>
      rw [hcmd]; decide
    unfold handle_removepoint
    rw [hsplit]
    dsimp only
    rw [if_pos (by rw [hx, hy]; rfl)]
  refine ⟨hmain, fun hnone => ?_⟩
  rw [hmain]
  simp only
  have : st.point_set.filter (fun q => !(q.x == stodQ xs && q.y == stodQ ys)) = st.point_set := by
    apply List.filter_eq_self.mpr
    intro q hq
    have := hnone q hq
    simp only [Bool.not_eq_true', Bool.and_eq_false_iff]
    by_cases h1 : q.x = stodQ xs
    · by_cases h2 : q.y = stodQ ys
      · exact absurd ⟨h1, h2⟩ this
      · exact Or.inr (by simpa using h2)
    · exact Or.inl (by simpa using h1)
  rw [this]

/-- Witness for C8: removing `1,2` from a set holding two copies of
`(1,2)` around `(3,4)` deletes both copies and answers `OK`; removing
`7,8`, which is absent, answers `OK` and leaves the set unchanged. -/
theorem c8_removepoint_all_matches_witness :
    process_line 6 "Removepoint 1,2\n".toList ⟨[⟨1, 2⟩, ⟨3, 4⟩, ⟨1, 2⟩], [], false, 0, -1⟩ =
      (⟨[⟨3, 4⟩], [], false, 0, -1⟩, "OK") ∧
    (process_line 6 "Removepoint 7,8\n".toList ⟨[⟨1, 2⟩, ⟨3, 4⟩, ⟨1, 2⟩], [], false, 0, -1⟩).1 =
      ⟨[⟨1, 2⟩, ⟨3, 4⟩, ⟨1, 2⟩], [], false, 0, -1⟩ := by
  constructor
  · exact ((c8_removepoint_all_matches ⟨[⟨1, 2⟩, ⟨3, 4⟩, ⟨1, 2⟩], [], false, 0, -1⟩ 6 _
      "1".toList "2".toList rfl (by decide) (by decide) (by decide) (by decide)).1).trans
      (by decide)
  · exact (c8_removepoint_all_matches ⟨[⟨1, 2⟩, ⟨3, 4⟩, ⟨1, 2⟩], [], false, 0, -1⟩ 6 _
      "7".toList "8".toList rfl (by decide) (by decide) (by decide) (by decide)).2
      (by decide)

/-- The session-bookkeeping invariant of C10: with no upload pending the
temporary buffer is empty and the owner descriptor is `-1`; with an upload
pending at least one more point is expected.  Because the session is a
single set of scalars, the invariant also expresses that at most one
upload session exists at any time. -/
def SessionInv (st : ServerState) : Prop :=
  (st.waiting_for_graph = false → st.temp_points = [] ∧ st.newgraph_owner_fd = -1) ∧
  (st.waiting_for_graph = true → 1 ≤ st.points_to_read)

/-- The in-session point handler preserves the session invariant. -/
lemma handle_point_line_sessionInv (line : List Char) (st : ServerState)
    (h : SessionInv st) (hw : st.waiting_for_graph = true) :
    SessionInv (handle_point_line line st).1 := by
  obtain ⟨hidle, hbusy⟩ := h
  unfold handle_point_line
  split
  · exact ⟨hidle, hbusy⟩
  · split
    · dsimp only
      split
      · exact ⟨fun _ => ⟨rfl, rfl⟩, fun hc => by simp at hc⟩
      · next hptr =>
        constructor
        · intro hc
          dsimp only at hc
          rw [hw] at hc
          simp at hc
        · intro _
          have := hbusy hw
          dsimp only
          omega
    · exact ⟨hidle, hbusy⟩

/-- `Newpoint` only touches `point_set`. -/
lemma handle_newpoint_sessionFields (args : List Char) (st : ServerState) :
    (handle_newpoint args st).1.waiting_for_graph = st.waiting_for_graph ∧
    (handle_newpoint args st).1.temp_points = st.temp_points ∧
    (handle_newpoint args st).1.newgraph_owner_fd = st.newgraph_owner_fd ∧
    (handle_newpoint args st).1.points_to_read = st.points_to_read := by
  unfold handle_newpoint
  split
  · exact ⟨rfl, rfl, rfl, rfl⟩
  · split <;> exact ⟨rfl, rfl, rfl, rfl⟩

/-- `Removepoint` only touches `point_set`. -/
lemma handle_removepoint_sessionFields (args : List Char) (st : ServerState) :
    (handle_removepoint args st).1.waiting_for_graph = st.waiting_for_graph ∧
    (handle_removepoint args st).1.temp_points = st.temp_points ∧
    (handle_removepoint args st).1.newgraph_owner_fd = st.newgraph_owner_fd ∧
    (handle_removepoint args st).1.points_to_read = st.points_to_read := by
  unfold handle_removepoint
  split
  · exact ⟨rfl, rfl, rfl, rfl⟩
  · split <;> exact ⟨rfl, rfl, rfl, rfl⟩

/-- Line processing preserves the session invariant. -/
lemma process_line_sessionInv (fd : Int) (raw : List Char) (st : ServerState)
    (h : SessionInv st) : SessionInv (process_line fd raw st).1 := by
  obtain ⟨hidle, hbusy⟩ := h
  unfold process_line
  by_cases he : (trim_crlf raw).isEmpty
  · rw [if_pos he]; exact ⟨hidle, hbusy⟩
  · rw [if_neg he]
    by_cases hb : st.waiting_for_graph = true ∧ fd ≠ st.newgraph_owner_fd
    · rw [if_pos hb]; exact ⟨hidle, hbusy⟩
    · rw [if_neg hb]
      by_cases ho : st.waiting_for_graph = true ∧ fd = st.newgraph_owner_fd
      · rw [if_pos ho]
        exact handle_point_line_sessionInv _ st ⟨hidle, hbusy⟩ ho.1
      · rw [if_neg ho]
        dsimp only
        by_cases hng : (firstTok (trim_crlf raw)).1 = "Newgraph".toList
        · rw [if_pos hng]
          rcases hp : parseIntTok ((firstTok (trim_crlf raw)).2.dropWhile (fun c => c == ' '))
            with _ | ⟨n, r⟩
          · exact ⟨hidle, hbusy⟩
          · dsimp only
            by_cases hn : n ≤ 0
            · rw [if_pos hn]; exact ⟨hidle, hbusy⟩
            · rw [if_neg hn]
              exact ⟨fun hc => by simp at hc, fun _ => by dsimp only; omega⟩
        · rw [if_neg hng]
          by_cases hnp : (firstTok (trim_crlf raw)).1 = "Newpoint".toList
          · rw [if_pos hnp]
            obtain ⟨h1, h2, h3, h4⟩ := handle_newpoint_sessionFields
              ((firstTok (trim_crlf raw)).2.dropWhile (fun c => c == ' ')) st
            exact ⟨fun hc => by rw [h2, h3]; exact hidle (h1 ▸ hc),
                   fun hc => by rw [h4]; exact hbusy (h1 ▸ hc)⟩
          · rw [if_neg hnp]
            by_cases hrp : (firstTok (trim_crlf raw)).1 = "Removepoint".toList
            · rw [if_pos hrp]
              obtain ⟨h1, h2, h3, h4⟩ := handle_removepoint_sessionFields
                ((firstTok (trim_crlf raw)).2.dropWhile (fun c => c == ' ')) st
              exact ⟨fun hc => by rw [h2, h3]; exact hidle (h1 ▸ hc),
                     fun hc => by rw [h4]; exact hbusy (h1 ▸ hc)⟩
            · rw [if_neg hrp]
              by_cases hch : (firstTok (trim_crlf raw)).1 = "CH".toList
              · rw [if_pos hch]; exact ⟨hidle, hbusy⟩
              · rw [if_neg hch]; exact ⟨hidle, hbusy⟩

/-- Disconnect cleanup preserves the session invariant. -/
lemma handle_disconnect_sessionInv (fd : Int) (st : ServerState)
    (h : SessionInv st) : SessionInv (handle_disconnect fd st) := by
  obtain ⟨hidle, hbusy⟩ := h
  unfold handle_disconnect
  split
  · exact ⟨fun _ => ⟨rfl, rfl⟩, fun hcontra => by simp at hcontra⟩
  · exact ⟨hidle, hbusy⟩

/-- Every event preserves the session invariant. -/
lemma stepEvent_sessionInv (st : ServerState) (e : Event)
    (h : SessionInv st) : SessionInv (stepEvent st e) := by
  cases e with
  | line fd raw => exact process_line_sessionInv fd raw st h
  | disc fd => exact handle_disconnect_sessionInv fd st h

/-- C10: in every reachable state of the server the upload-session
bookkeeping is consistent — `waiting_for_graph = false` implies an empty
temporary buffer and owner `-1`, and `waiting_for_graph = true` implies a
remaining count of at least 1.  Newgraph acceptance, point contribution,
completion and owner-disconnect cleanup all preserve this, so at most one
upload session ever exists. -/
theorem c10_session_invariant (st : ServerState) (h : Reachable st) : SessionInv st := by
  obtain ⟨es, rfl⟩ := h
  suffices haux : ∀ (es : List Event) (s : ServerState), SessionInv s →
      SessionInv (es.foldl stepEvent s) by
    exact haux es initState (by exact ⟨fun _ => ⟨rfl, rfl⟩, fun hcontra => by simp [initState] at hcontra⟩)
  intro es
  induction es with
  | nil => exact fun s hs => hs
  | cons e rest ih =>
    intro s hs
    exact ih (stepEvent s e) (stepEvent_sessionInv s e hs)

/-- Witness for C10: the state reached after accepting `Newgraph 2` from
fd 3 and receiving one point satisfies the invariant. -/
theorem c10_session_invariant_witness :
    SessionInv (runEvents [Event.line 3 "Newgraph 2\n".toList, Event.line 3 "5,6\n".toList]) :=
  c10_session_invariant _ ⟨_, rfl⟩

/-- Unfolding of a valid point line. -/
lemma validPointLine_elim (l : List Char) (hv : ValidPointLine l = true) :
    ∃ xs ys, splitComma (trim_crlf l) = some (xs, ys) ∧
      (is_number xs && is_number ys) = true ∧
      parsePointLine l = ⟨stodQ xs, stodQ ys⟩ := by
  unfold ValidPointLine at hv
  unfold parsePointLine
  rcases h : splitComma (trim_crlf l) with _ | ⟨xs, ys⟩
  · rw [h] at hv; simp at hv
  · rw [h] at hv
    exact ⟨xs, ys, rfl, hv, rfl⟩

/-- One point contribution from the owner during an upload: the parsed
point is appended to the buffer and the counter decremented; on reaching
zero the PointSet is swapped wholesale and the session cleared with
response `GRAPH_LOADED`, otherwise the response is `OK`. -/
lemma point_contribution (l : List Char) (st : ServerState) (fd : Int)
    (hw : st.waiting_for_graph = true) (hown : st.newgraph_owner_fd = fd)
    (hv : ValidPointLine l = true) :
    process_line fd l st =
      (if st.points_to_read - 1 = 0 then
        ({ point_set := st.temp_points ++ [parsePointLine l], temp_points := [],
           waiting_for_graph := false, points_to_read := 0, newgraph_owner_fd := -1 },
         "GRAPH_LOADED")
       else
        ({ point_set := st.point_set, temp_points := st.temp_points ++ [parsePointLine l],
           waiting_for_graph := st.waiting_for_graph, points_to_read := st.points_to_read - 1,
           newgraph_owner_fd := st.newgraph_owner_fd }, "OK")) := by
  obtain ⟨xs, ys, hsplit, hnum, hpt⟩ := validPointLine_elim l hv
  have hne : trim_crlf l ≠ [] := splitComma_ne_nil hsplit
  unfold process_line
  rw [if_neg (by simpa using hne),
      if_neg (by rintro ⟨_, hfd⟩; exact hfd hown.symm),
      if_pos ⟨hw, hown.symm⟩]
  unfold handle_point_line
  rw [hsplit]
  dsimp only
  rw [if_pos hnum, hpt]
  by_cases hz : st.points_to_read - 1 = 0
  · rw [if_pos hz, if_pos hz, hz]
  · rw [if_neg hz, if_neg hz]

/-- Feeding an upload session exactly as many valid point lines as it
still expects: every line is consumed as a point, the first `n-1`
responses are `OK`, the last is `GRAPH_LOADED`, and the final state holds
exactly the buffered prefix plus the parsed points (in submission order)
as the new PointSet, with the session cleared. -/
lemma upload_runLines (ls : List (List Char)) : ∀ (fd : Int) (st : ServerState),
    st.waiting_for_graph = true → st.newgraph_owner_fd = fd →
    st.points_to_read = (ls.length : Int) → ls ≠ [] →
    (∀ l ∈ ls, ValidPointLine l = true) →
    runLines fd ls st =
      ({ point_set := st.temp_points ++ ls.map parsePointLine, temp_points := [],
         waiting_for_graph := false, points_to_read := 0, newgraph_owner_fd := -1 },
       List.replicate (ls.length - 1) "OK" ++ ["GRAPH_LOADED"]) := by
  induction ls with
  | nil => intro fd st _ _ _ hne _; exact absurd rfl hne
  | cons x rest ih =>
    intro fd st hw hown hptr _ hv
    have hvx : ValidPointLine x = true := hv x (List.mem_cons_self x rest)
    cases rest with
    | nil =>
      have hz : st.points_to_read - 1 = 0 := by
        rw [hptr]; simp
      unfold runLines
      rw [point_contribution x st fd hw hown hvx, if_pos hz]
      unfold runLines
      simp
    | cons y rest' =>
      have hnz : ¬(st.points_to_read - 1 = 0) := by
        rw [hptr]
        simp only [List.length_cons]
        push_cast
        omega
      unfold runLines
      rw [point_contribution x st fd hw hown hvx, if_neg hnz]
      dsimp only
      have hptr' : st.points_to_read - 1 = ((y :: rest').length : Int) := by
        rw [hptr]
        simp only [List.length_cons]
        push_cast
        omega
      rw [ih fd (ServerState.mk st.point_set (st.temp_points ++ [parsePointLine x])
          st.waiting_for_graph (st.points_to_read - 1) st.newgraph_owner_fd) hw hown hptr'
        (by simp) (fun l hl => hv l (List.mem_cons_of_mem x hl))]
      simp only [Prod.mk.injEq]
      constructor
      · simp [List.append_assoc]
      · have hlen : (x :: y :: rest').length - 1 = (y :: rest').length := by simp
        rw [hlen]
        simp [List.replicate_succ]

/-- Inversion of a successful `Newgraph` acceptance: if processing a line
in a non-uploading state answers `OK` and leaves the server uploading,
the line must have been an accepted `Newgraph`, so the buffer is empty,
the sender owns the session and at least one point is expected. -/
lemma newgraph_accept_inversion (st0 st1 : ServerState) (fd : Int) (raw : List Char)
    (hw0 : st0.waiting_for_graph = false)
    (h : process_line fd raw st0 = (st1, "OK"))
    (hw1 : st1.waiting_for_graph = true) :
    st1.temp_points = [] ∧ st1.newgraph_owner_fd = fd ∧ 1 ≤ st1.points_to_read := by
  unfold process_line at h
  by_cases he : (trim_crlf raw).isEmpty
  · rw [if_pos he] at h
    exact absurd (congrArg Prod.snd h) (by simp)
  rw [if_neg he, if_neg (by simp [hw0]), if_neg (by simp [hw0])] at h
  dsimp only at h
  by_cases hng : (firstTok (trim_crlf raw)).1 = "Newgraph".toList
  · rw [if_pos hng] at h
    rcases hp : parseIntTok ((firstTok (trim_crlf raw)).2.dropWhile (fun c => c == ' '))
      with _ | ⟨n, r⟩
    · rw [hp] at h
      exact absurd (congrArg Prod.snd h) (by simp)
    · rw [hp] at h
      dsimp only at h
      by_cases hn : n ≤ 0
      · rw [if_pos hn] at h
        exact absurd (congrArg Prod.snd h) (by simp)
      · rw [if_neg hn] at h
        have h1 : ServerState.mk st0.point_set [] true n fd = st1 := congrArg Prod.fst h
        rw [← h1]
        exact ⟨rfl, rfl, by dsimp only; omega⟩
  · rw [if_neg hng] at h
    by_cases hnp : (firstTok (trim_crlf raw)).1 = "Newpoint".toList
    · rw [if_pos hnp] at h
      have h1 := (handle_newpoint_sessionFields
        ((firstTok (trim_crlf raw)).2.dropWhile (fun c => c == ' ')) st0).1
      rw [congrArg Prod.fst h] at h1
      rw [hw1, hw0] at h1
      exact absurd h1 (by simp)
    · rw [if_neg hnp] at h
      by_cases hrp : (firstTok (trim_crlf raw)).1 = "Removepoint".toList
      · rw [if_pos hrp] at h
        have h1 := (handle_removepoint_sessionFields
          ((firstTok (trim_crlf raw)).2.dropWhile (fun c => c == ' ')) st0).1
        rw [congrArg Prod.fst h] at h1
        rw [hw1, hw0] at h1
        exact absurd h1 (by simp)
      · rw [if_neg hrp] at h
        by_cases hch : (firstTok (trim_crlf raw)).1 = "CH".toList
        · rw [if_pos hch] at h
          have h1 : st0 = st1 := congrArg Prod.fst h
          rw [← h1] at hw1
          rw [hw1] at hw0
          exact absurd hw0 (by simp)
        · rw [if_neg hch] at h
          exact absurd (congrArg Prod.snd h) (by simp)

/-- C1: after the server accepts a `Newgraph` from connection `fd` (answer
`OK`, upload mode entered), feeding exactly the expected number of valid
point lines from `fd` yields `OK` for each of the first `n-1`, then
`GRAPH_LOADED`, and at that moment the shared PointSet equals exactly
those `n` parsed points in submission order — the prior contents are
discarded, not merged — and the upload session is cleared. -/
theorem c1_upload_replaces_pointset (st0 st1 : ServerState) (fd : Int) (raw : List Char)
    (ls : List (List Char))
    (hw0 : st0.waiting_for_graph = false)
    (hacc : process_line fd raw st0 = (st1, "OK"))
    (hw1 : st1.waiting_for_graph = true)
    (hn : st1.points_to_read = (ls.length : Int))
    (hne : ls ≠ [])
    (hv : ∀ l ∈ ls, ValidPointLine l = true) :
    runLines fd ls st1 =
      ({ point_set := ls.map parsePointLine, temp_points := [],
         waiting_for_graph := false, points_to_read := 0, newgraph_owner_fd := -1 },
       List.replicate (ls.length - 1) "OK" ++ ["GRAPH_LOADED"]) := by
  obtain ⟨htemp, hown, _⟩ := newgraph_accept_inversion st0 st1 fd raw hw0 hacc hw1
  rw [upload_runLines ls fd st1 hw1 hown hn hne hv, htemp]
  simp

/-- Witness for C1: `Newgraph 2` from fd 5 on the initial state, then the
two point lines `1,2` and `3,4`: responses `OK`, `GRAPH_LOADED`; the final
PointSet is exactly those two points in order and the session is clear. -/
theorem c1_upload_replaces_pointset_witness :
    runLines 5 ["1,2\n".toList, "3,4\n".toList] ⟨[⟨9, 9⟩], [], true, 2, 5⟩ =
      (⟨[⟨1, 2⟩, ⟨3, 4⟩], [], false, 0, -1⟩, ["OK", "GRAPH_LOADED"]) := by
  have h := c1_upload_replaces_pointset ⟨[⟨9, 9⟩], [], false, 0, -1⟩
    ⟨[⟨9, 9⟩], [], true, 2, 5⟩ 5 "Newgraph 2\n".toList
    ["1,2\n".toList, "3,4\n".toList] rfl (by decide) rfl (by decide) (by decide) (by decide)
  exact h.trans (by decide)

/-! ### Order independence of the hull (C9) -/

/-- Sorting is permutation-invariant for the lexicographic order: because
`lexLe` is total, transitive and antisymmetric on point values, the sorted
list of any permutation is the same list. -/
lemma insertionSort_perm_invariant (l l' : List Point) (h : l.Perm l') :
    List.insertionSort lexLe l = List.insertionSort lexLe l' := by
  exact List.eq_of_perm_of_sorted
    ((List.perm_insertionSort lexLe l).trans (h.trans (List.perm_insertionSort lexLe l').symm))
    (List.sorted_insertionSort lexLe l) (List.sorted_insertionSort lexLe l')

/-- The computed hull depends only on the multiset of input points once
there are at least two of them, and is literally unchanged under rotation
of the input ordering (for fewer than two points, a rotation is the
identity). -/
lemma hull_rotate (ps : List Point) (n : Nat) :
    compute_convex_hull_deque (ps.rotate n) = compute_convex_hull_deque ps := by
  have hperm : (ps.rotate n).Perm ps := ps.rotate_perm n
  have hlen : (ps.rotate n).length = ps.length := hperm.length_eq
  unfold compute_convex_hull_deque
  by_cases hsmall : ps.length ≤ 1
  · rw [if_pos (by rw [hlen]; exact hsmall), if_pos hsmall]
    rcases ps with _ | ⟨a, _ | ⟨b, rest⟩⟩
    · simp
    · simp [List.rotate_singleton]
    · simp at hsmall
  · rw [if_neg (by rw [hlen]; exact hsmall), if_neg hsmall]
    rw [insertionSort_perm_invariant _ _ hperm]

/-- C9: the area of the computed hull is invariant under any rotation of
the input ordering — the algorithm sorts its input first, so the computed
hull (and hence its area) does not depend on the order in which the points
were supplied. -/
theorem c9_area_rotation_invariant (ps : List Point) (n : Nat) :
    compute_area (compute_convex_hull_deque (ps.rotate n)) =
      compute_area (compute_convex_hull_deque ps) := by
  rw [hull_rotate]

/-! ### Degenerate inputs (C4) -/

/-- C4: the deque `compute_area` (part4 and every other deque variant)
returns 0 on the empty polygon — its loop guard keeps the `(i+1) % n`
wrap-around from ever being evaluated with `n = 0` — and on inputs of 0 or
1 points the hull function returns its input unchanged with hull area 0.
The `std::list` variant of part2, however, evaluates `polygon.back()` and
`std::next(polygon.begin())` on the empty list (undefined behaviour,
modelled as `none`) instead of returning the required 0. -/
theorem c4_degenerate_inputs :
    compute_area [] = 0 ∧
    (∀ ps : List Point, ps.length ≤ 1 →
      compute_convex_hull_deque ps = ps ∧ compute_area (compute_convex_hull_deque ps) = 0) ∧
    compute_area_list [] = none := by
  refine ⟨by simp [compute_area], ?_, rfl⟩
  intro ps hps
  have hh : compute_convex_hull_deque ps = ps := by
    unfold compute_convex_hull_deque
    rw [if_pos hps]
  refine ⟨hh, ?_⟩
  rw [hh]
  rcases ps with _ | ⟨a, _ | ⟨b, rest⟩⟩
  · simp [compute_area]
  · simp [compute_area, List.range_succ]
  · simp at hps

/-- Witness for C4: a singleton input is returned unchanged by the hull
function and has hull area 0. -/
theorem c4_degenerate_inputs_witness :
    compute_convex_hull_deque [⟨2, 3⟩] = [⟨2, 3⟩] ∧
    compute_area (compute_convex_hull_deque [⟨2, 3⟩]) = 0 :=
  c4_degenerate_inputs.2.1 [⟨2, 3⟩] (by decide)

/-! ### Convex-hull correctness (C5)

The development shows that for every input, the hull returned by
`compute_convex_hull_deque` consists of input points and makes a strict
left turn at every interior vertex (no three consecutive output vertices
collinear), which is the counter-clockwise ordering property of the
monotone chain.  The chain stack is analysed with the invariant that it is
lexicographically ordered, strictly convex, and that every point processed
so far lies on or left of every chain edge. -/

/-- `lexLe` is reflexive. -/
lemma lexLe_refl (a : Point) : lexLe a a := Or.inr ⟨rfl, le_refl _⟩

/-- `lexLe` bounds the x-coordinates. -/
lemma lexLe_x {a b : Point} (h : lexLe a b) : a.x ≤ b.x := by
  rcases h with h | ⟨h, _⟩
  · exact le_of_lt h
  · exact le_of_eq h

/-- With equal x-coordinates, `lexLe` bounds the y-coordinates. -/
lemma lexLe_y_of_eq {a b : Point} (h : lexLe a b) (hx : a.x = b.x) : a.y ≤ b.y := by
  rcases h with h | ⟨_, h'⟩
  · exact absurd hx (ne_of_lt h)
  · exact h'

/-- Two points below each other in `lexLe` are equal. -/
lemma lexLe_asymm {a b : Point} (h1 : lexLe a b) (h2 : lexLe b a) : a = b :=
  IsAntisymm.antisymm a b h1 h2

/-- `lexLe` is total. -/
lemma lexLe_total (a b : Point) : lexLe a b ∨ lexLe b a := IsTotal.total a b

/-- `lexLe` is transitive. -/
lemma lexLe_trans {a b c : Point} (h1 : lexLe a b) (h2 : lexLe b c) : lexLe a c :=
  IsTrans.trans a b c h1 h2

/-- Degenerate cross products vanish. -/
lemma cross_right_self (O A : Point) : cross O A A = 0 := by unfold cross; ring

/-- Degenerate cross products vanish. -/
lemma cross_left_self (O B : Point) : cross O O B = 0 := by unfold cross; ring

/-- Degenerate cross products vanish. -/
lemma cross_outer_self (A B : Point) : cross A B A = 0 := by unfold cross; ring

/-- Pivot identity relating the cross products of four points around a
common pivot `a`. -/
lemma cross_pivot (a e p q : Point) :
    (e.x - a.x) * cross a p q = (p.x - a.x) * cross a e q - (q.x - a.x) * cross a e p := by
  unfold cross; ring

/-- Chain identity for four points along the chain. -/
lemma cross_four (c b a p : Point) :
    (a.x - b.x) * cross c b p = (p.x - b.x) * cross c b a + (b.x - c.x) * cross b a p := by
  unfold cross; ring

/-- Flip identity used for the collinear junction analysis. -/
lemma cross_flip_id (A B C Q : Point) :
    (B.x - A.x) * cross B C Q + (B.x - C.x) * cross A B Q = (B.x - Q.x) * cross A B C := by
  unfold cross; ring

/-- Cancellation of a positive factor. -/
lemma qpos_cancel {x y : ℚ} (h : 0 < x * y) (hx : 0 < x) : 0 < y := by
  by_contra hy
  push_neg at hy
  nlinarith

/-- Cancellation of a positive factor. -/
lemma qnonneg_cancel {x y : ℚ} (h : 0 ≤ x * y) (hx : 0 < x) : 0 ≤ y := by
  by_contra hy
  push_neg at hy
  nlinarith

/-- Cancellation of a positive factor. -/
lemma qnonpos_cancel {x y : ℚ} (h : x * y ≤ 0) (hx : 0 < x) : y ≤ 0 := by
  by_contra hy
  push_neg at hy
  nlinarith

/-- Left turns propagate down an x-sorted chain: if `c ≤ b ≤ a ≤ p`
lexicographically, the chain turns strictly left at `b` and the new point
`p` is strictly left of the top edge, then `p` is strictly left of the
deeper edge as well. -/
lemma cross_trans_down {c b a p : Point}
    (hcb : lexLe c b) (hba : lexLe b a) (hap : lexLe a p)
    (h1 : 0 < cross c b a) (h2 : 0 < cross b a p) : 0 < cross c b p := by
  by_cases hx : b.x < a.x
  · have h3 : b.x < p.x := lt_of_lt_of_le hx (lexLe_x hap)
    have h4 : c.x ≤ b.x := lexLe_x hcb
    have hpos : 0 < (a.x - b.x) * cross c b p := by
      rw [cross_four]
      have t1 : 0 < (p.x - b.x) * cross c b a := mul_pos (by linarith) h1
      have t2 : 0 ≤ (b.x - c.x) * cross b a p := mul_nonneg (by linarith) h2.le
      linarith
    exact qpos_cancel hpos (by linarith)
  · exfalso
    have hbx : b.x = a.x := le_antisymm (lexLe_x hba) (not_lt.mp hx)
    have hya : b.y ≤ a.y := lexLe_y_of_eq hba hbx
    have hpx : a.x ≤ p.x := lexLe_x hap
    unfold cross at h2
    have hprod : 0 ≤ (a.y - b.y) * (p.x - b.x) :=
      mul_nonneg (by linarith) (by linarith)
    have hz : (a.x - b.x) * (p.y - b.y) = 0 := by
      rw [show a.x - b.x = 0 by linarith]; ring
    linarith

/-- Left-of-edge facts propagate across points popped in one pass: with
`a ≤ e1 ≤ e2 ≤ p` lexicographically, if `e1` is on or left of the new
edge `(a, p)` and `e2` is on or left of `(e1, p)`, then `e2` is on or left
of `(a, p)`. -/
lemma cross_up {a e1 e2 p : Point}
    (h1 : lexLe a e1) (h2 : lexLe e1 e2) (h3 : lexLe e2 p)
    (hc1 : 0 ≤ cross a p e1) (hc2 : 0 ≤ cross e1 p e2) : 0 ≤ cross a p e2 := by
  have hid : (p.x - e1.x) * cross a p e2 =
      (p.x - e2.x) * cross a p e1 + (p.x - a.x) * cross e1 p e2 := by
    unfold cross; ring
  by_cases hx : e1.x < p.x
  · have t1 : 0 ≤ (p.x - e2.x) * cross a p e1 :=
      mul_nonneg (by linarith [lexLe_x h3]) hc1
    have t2 : 0 ≤ (p.x - a.x) * cross e1 p e2 :=
      mul_nonneg (by linarith [lexLe_x h1, lexLe_x h2, lexLe_x h3]) hc2
    exact qnonneg_cancel (by rw [hid]; linarith) (by linarith)
  · have he1 : e1.x = p.x := le_antisymm (lexLe_x (lexLe_trans h2 h3)) (not_lt.mp hx)
    have he2 : e2.x = p.x := le_antisymm (lexLe_x h3) (by rw [← he1]; exact lexLe_x h2)
    by_cases hax : a.x < p.x
    · have hq1 : 0 ≤ (p.x - a.x) * (e1.y - p.y) := by
        have : cross a p e1 = (p.x - a.x) * (e1.y - p.y) := by
          unfold cross; rw [he1]; ring
        linarith [this ▸ hc1]
      have he1y : p.y ≤ e1.y := by
        have := qnonneg_cancel hq1 (by linarith)
        linarith
      have he1y' : e1.y ≤ e2.y := lexLe_y_of_eq h2 (by rw [he1, he2])
      have he2y : e2.y ≤ p.y := lexLe_y_of_eq h3 he2
      have hcalc : cross a p e2 = (p.x - a.x) * (e2.y - p.y) := by
        unfold cross; rw [he2]; ring
      rw [hcalc]
      have : e2.y = p.y := by linarith
      rw [this]
      simp
    · have hax' : a.x = p.x := le_antisymm (lexLe_x (lexLe_trans h1 (lexLe_trans h2 h3))) (not_lt.mp hax)
      have : cross a p e2 = 0 := by
        unfold cross
        rw [show p.x - a.x = 0 by rw [hax']; ring, show e2.x - a.x = 0 by rw [he2, hax']; ring]
        ring
      rw [this]

/-- Pointwise extensionality for `Point`. -/
lemma point_ext {a b : Point} (hx : a.x = b.x) (hy : a.y = b.y) : a = b := by
  cases a; cases b; simp_all

/-- A point `q` lexicographically left of the stop point `a` that is on or
left of the old top edge `(b, a)` is on or left of the new edge `(a, p)`,
given that `p` is strictly left of `(b, a)`. -/
lemma cross_new_edge_left {b a p q : Point}
    (hba : lexLe b a) (hqa : lexLe q a) (hap : lexLe a p)
    (hq : 0 ≤ cross b a q) (hp : 0 < cross b a p) : 0 ≤ cross a p q := by
  have hid : (a.x - b.x) * cross a p q =
      (p.x - a.x) * cross b a q - (q.x - a.x) * cross b a p := by
    unfold cross; ring
  by_cases hx : b.x < a.x
  · have t1 : 0 ≤ (p.x - a.x) * cross b a q :=
      mul_nonneg (by linarith [lexLe_x hap]) hq
    have t2 : 0 ≤ (a.x - q.x) * cross b a p :=
      mul_nonneg (by linarith [lexLe_x hqa]) hp.le
    exact qnonneg_cancel (by rw [hid]; nlinarith) (by linarith)
  · exfalso
    have hbx : b.x = a.x := le_antisymm (lexLe_x hba) (not_lt.mp hx)
    have hby : b.y ≤ a.y := lexLe_y_of_eq hba hbx
    have hpx : a.x ≤ p.x := lexLe_x hap
    unfold cross at hp
    have hprod : 0 ≤ (a.y - b.y) * (p.x - b.x) :=
      mul_nonneg (by linarith) (by linarith)
    have hz : (a.x - b.x) * (p.y - b.y) = 0 := by
      rw [show a.x - b.x = 0 by linarith]; ring
    linarith

/-- A point `q` lexicographically right of the stop point `a` that is on
or left of the old edge `(a, e1)` is on or left of the new edge `(a, p)`,
given the pop condition (the popped point `e1` is on or right of the
directed line `a → p`, i.e. `cross a e1 p ≤ 0`). -/
lemma cross_pop_above {a e1 p q : Point}
    (hae : lexLe a e1) (hne : e1 ≠ a) (hap : lexLe a p) (haq : lexLe a q)
    (hedge : 0 ≤ cross a e1 q) (hpop : cross a e1 p ≤ 0) : 0 ≤ cross a p q := by
  by_cases hx : a.x < e1.x
  · have t1 : 0 ≤ (p.x - a.x) * cross a e1 q :=
      mul_nonneg (by linarith [lexLe_x hap]) hedge
    have t2 : (q.x - a.x) * cross a e1 p ≤ 0 :=
      mul_nonpos_of_nonneg_of_nonpos (by linarith [lexLe_x haq]) hpop
    exact qnonneg_cancel (by rw [cross_pivot]; linarith) (by linarith)
  · have hex : e1.x = a.x := le_antisymm (not_lt.mp hx) (lexLe_x hae)
    have hey : a.y < e1.y := by
      rcases lt_or_eq_of_le (lexLe_y_of_eq hae hex.symm) with h | h
      · exact h
      · exact absurd (point_ext hex h.symm) hne
    have hqx : q.x = a.x := by
      have h1 : cross a e1 q = -((e1.y - a.y) * (q.x - a.x)) := by
        unfold cross
        rw [show e1.x - a.x = 0 by linarith]
        ring
      rw [h1] at hedge
      have h2 : 0 ≤ (e1.y - a.y) * (q.x - a.x) → q.x - a.x ≤ 0 → (e1.y - a.y) * (q.x - a.x) ≤ 0 :=
        fun _ h' => mul_nonpos_of_nonneg_of_nonpos (by linarith) h'
      by_contra hne'
      have hgt : a.x < q.x := lt_of_le_of_ne (lexLe_x haq) (fun h => hne' h.symm)
      nlinarith
    have hqy : a.y ≤ q.y := lexLe_y_of_eq haq hqx.symm
    have : cross a p q = (p.x - a.x) * (q.y - a.y) := by
      unfold cross
      rw [show q.x - a.x = 0 by linarith]
      ring
    rw [this]
    exact mul_nonneg (by linarith [lexLe_x hap]) (by linarith)

/-- Junction flip: if `C` lies exactly on the directed line `A → B`
(with `A ≠ B`, both `C` and `Q` lexicographically at or before `B`), then
any point `Q` on or left of `A → B` is on or right of `B → C`. -/
lemma collinear_flip {A B C Q : Point}
    (hAB : lexLe A B) (hCB : lexLe C B) (hQB : lexLe Q B) (hne : A ≠ B)
    (hcol : cross A B C = 0) (hQ : 0 ≤ cross A B Q) : cross B C Q ≤ 0 := by
  by_cases hx : A.x < B.x
  · have t1 : (B.x - C.x) * cross A B Q ≥ 0 :=
      mul_nonneg (by linarith [lexLe_x hCB]) hQ
    have hid := cross_flip_id A B C Q
    rw [hcol, mul_zero] at hid
    exact @qnonpos_cancel (B.x - A.x) (cross B C Q) (by linarith) (by linarith)
  · have hax : A.x = B.x := le_antisymm (lexLe_x hAB) (not_lt.mp hx)
    have hay : A.y < B.y := by
      rcases lt_or_eq_of_le (lexLe_y_of_eq hAB hax) with h | h
      · exact h
      · exact absurd (point_ext hax h) hne
    have hcx : C.x = B.x := by
      have h1 : cross A B C = -((B.y - A.y) * (C.x - A.x)) := by
        unfold cross
        rw [show B.x - A.x = 0 by linarith]
        ring
      rw [h1] at hcol
      have h2 : (B.y - A.y) * (C.x - A.x) = 0 := by linarith
      have h3 : C.x - A.x = 0 := by
        rcases mul_eq_zero.mp h2 with h | h
        · linarith
        · exact h
      linarith
    have : cross B C Q = (B.y - C.y) * (Q.x - B.x) := by
      unfold cross
      rw [show C.x - B.x = 0 by linarith]
      ring
    rw [this]
    exact mul_nonpos_of_nonneg_of_nonpos
      (by linarith [lexLe_y_of_eq hCB hcx]) (by linarith [lexLe_x hQB])

/-- Strict convexity of a chain stack (stored top-first): every three
consecutive stack entries, read bottom-up, make a strict left turn.  This
is exactly the invariant the `while` loop of the monotone chain enforces
between the deque entries `hull[i-2], hull[i-1], hull[i]`. -/
def GoodStack : List Point → Prop
  | a :: b :: c :: rest => 0 < cross c b a ∧ GoodStack (b :: c :: rest)
  | _ => True

/-- A point is on or left of every edge of the stack (edges read
bottom-up, i.e. in chain direction). -/
def EdgesOK (q : Point) : List Point → Prop
  | a :: b :: rest => 0 ≤ cross b a q ∧ EdgesOK q (b :: rest)
  | _ => True

/-- The stack is lexicographically ordered, heads (later points) above. -/
def StackLe : List Point → Prop
  | a :: b :: rest => lexLe b a ∧ StackLe (b :: rest)
  | _ => True

lemma goodStack_tail {x : Point} {s : List Point} (h : GoodStack (x :: s)) : GoodStack s := by
  match s with
  | [] => trivial
  | [_] => trivial
  | _ :: _ :: _ => exact h.2

lemma edgesOK_tail {q x : Point} {s : List Point} (h : EdgesOK q (x :: s)) : EdgesOK q s := by
  match s with
  | [] => trivial
  | _ :: _ => exact h.2

lemma stackLe_tail {x : Point} {s : List Point} (h : StackLe (x :: s)) : StackLe s := by
  match s with
  | [] => trivial
  | _ :: _ => exact h.2

lemma goodStack_drop {s : List Point} (h : GoodStack s) (k : Nat) : GoodStack (s.drop k) := by
  induction k generalizing s with
  | zero => exact h
  | succ k ih =>
    match s with
    | [] => exact trivial
    | x :: s' => exact ih (goodStack_tail h)

lemma edgesOK_drop {q : Point} {s : List Point} (h : EdgesOK q s) (k : Nat) :
    EdgesOK q (s.drop k) := by
  induction k generalizing s with
  | zero => exact h
  | succ k ih =>
    match s with
    | [] => exact trivial
    | x :: s' => exact ih (edgesOK_tail h)

lemma stackLe_drop {s : List Point} (h : StackLe s) (k : Nat) : StackLe (s.drop k) := by
  induction k generalizing s with
  | zero => exact h
  | succ k ih =>
    match s with
    | [] => exact trivial
    | x :: s' => exact ih (stackLe_tail h)

/-- The pop loop only removes elements from the top: its result is a
`drop` of its input. -/
lemma popChain_drop (t : Nat) (p : Point) : ∀ s : List Point, ∃ k, popChain t p s = s.drop k := by
  intro s
  induction s with
  | nil => exact ⟨0, rfl⟩
  | cons a s' ih =>
    match s', ih with
    | [], _ => exact ⟨0, rfl⟩
    | b :: rest, ih =>
      rw [popChain]
      split
      · obtain ⟨k, hk⟩ := ih
        exact ⟨k + 1, hk⟩
      · exact ⟨0, rfl⟩

lemma popChain_ne_nil {t : Nat} {p : Point} {s : List Point} (h : s ≠ []) :
    popChain t p s ≠ [] := by
  induction s with
  | nil => exact absurd rfl h
  | cons a s' ih =>
    match s' with
    | [] => simp [popChain]
    | b :: rest =>
      rw [popChain]
      split
      · exact ih (by simp)
      · simp

lemma popChain_mem {t : Nat} {p x : Point} {s : List Point} (h : x ∈ popChain t p s) : x ∈ s := by
  obtain ⟨k, hk⟩ := popChain_drop t p s
  rw [hk] at h
  exact List.mem_of_mem_drop h

/-- The default value of `getLastD` is irrelevant on nonempty lists. -/
lemma getLastD_irrel (l : List Point) (x d₁ d₂ : Point) :
    (x :: l).getLastD d₁ = (x :: l).getLastD d₂ := by
  induction l generalizing x with
  | nil => rfl
  | cons y l' ih => simpa using ih y

/-- Popping preserves the bottom of a nonempty stack. -/
lemma popChain_getLastD (t : Nat) (p d : Point) : ∀ s : List Point, s ≠ [] →
    (popChain t p s).getLastD d = s.getLastD d := by
  intro s
  induction s with
  | nil => intro h; exact absurd rfl h
  | cons a s' ih =>
    intro _
    match s' with
    | [] => rfl
    | b :: rest =>
      rw [popChain]
      split
      · rw [ih (by simp)]
        simp
      · rfl

/-- Stop condition of the pop loop: the final top pair (if two elements
remain) fails the pop test. -/
lemma popChain_top (t : Nat) (p : Point) : ∀ s a b rest, popChain t p s = a :: b :: rest →
    ¬(t ≤ rest.length + 2 ∧ cross b a p ≤ 0) := by
  intro s
  induction s with
  | nil => intro a b rest h; simp [popChain] at h
  | cons x s' ih =>
    intro a b rest h
    match s' with
    | [] =>
      simp only [popChain] at h
      cases h
    | y :: rest₀ =>
      rw [popChain] at h
      revert h
      split
      · intro h; exact ih a b rest h
      · next hcond =>
        intro h
        cases h
        exact hcond

/-- Either nothing is popped, or the last pop removed the element `e`
sitting directly above the final top, with the recorded pop condition. -/
lemma popChain_proper (t : Nat) (p : Point) : ∀ s a rest, popChain t p s = a :: rest →
    popChain t p s = s ∨
    (∃ e k, s.drop k = e :: a :: rest ∧ cross a e p ≤ 0) := by
  intro s
  induction s with
  | nil => intro a rest h; simp [popChain] at h
  | cons x s' ih =>
    intro a rest h
    match s' with
    | [] => exact Or.inl rfl
    | y :: rest₀ =>
      rw [popChain] at h
      revert h
      split
      · next hcond =>
        intro h
        right
        rcases ih a rest h with heq | ⟨e, k, hk, hc⟩
        · rw [heq] at h
          injection h with h1 h2
          refine ⟨x, 0, ?_, ?_⟩
          · rw [List.drop_zero, h1, h2]
          · rw [← h1]; exact hcond.2
        · exact ⟨e, k + 1, by simpa using hk, hc⟩
      · next hcond =>
        intro _
        left
        rw [popChain, if_neg hcond]

/-- Pushing after popping with the lower-chain threshold 2 keeps the stack
strictly convex: the stop condition of the pop loop is exactly the strict
left-turn test for the newly formed top triple. -/
lemma goodStack_push₂ (p : Point) (s : List Point) (hs : GoodStack s) :
    GoodStack (p :: popChain 2 p s) := by
  rcases hres : popChain 2 p s with _ | ⟨a, _ | ⟨b, rest⟩⟩
  · trivial
  · trivial
  · refine ⟨?_, ?_⟩
    · have htop := popChain_top 2 p s a b rest hres
      push_neg at htop
      exact htop (by omega)
    · obtain ⟨k, hk⟩ := popChain_drop 2 p s
      rw [hres] at hk
      rw [hk]
      exact goodStack_drop hs k

/-- The new point is on or left of every edge that survives its pops:
the top surviving edge by the stop condition, deeper edges by downward
propagation of left turns. -/
lemma edges_of_stack_p (p : Point) : ∀ s₁ : List Point, StackLe s₁ → GoodStack s₁ →
    (∀ x ∈ s₁, lexLe x p) →
    (∀ a b rest, s₁ = a :: b :: rest → 0 < cross b a p) →
    EdgesOK p s₁ := by
  intro s₁
  induction s₁ with
  | nil => intros; trivial
  | cons a s' ih =>
    intro hle hgood hmem htop
    match s' with
    | [] => trivial
    | b :: rest =>
      refine ⟨(htop a b rest rfl).le, ?_⟩
      apply ih (stackLe_tail hle) (goodStack_tail hgood)
        (fun x hx => hmem x (List.mem_cons_of_mem _ hx))
      intro a' b' rest' heq
      injection heq with h1 h2
      subst h1
      subst h2
      exact cross_trans_down hle.2.1 hle.1 (hmem a (List.mem_cons_self _ _))
        hgood.1 (htop a b _ rfl)

/-- A strictly convex stack can only contain two adjacent equal entries if
it consists of exactly those two entries. -/
lemma dup_suffix {s : List Point} {x : Point} {rest : List Point} (hgood : GoodStack s)
    (k : Nat) (hk : s.drop k = x :: x :: rest) : rest = [] ∧ s = [x, x] := by
  have hklen : k < s.length := by
    by_contra hle
    rw [List.drop_eq_nil_of_le (by omega)] at hk
    cases hk
  have hlen : s.length = k + 2 + rest.length := by
    have := congrArg List.length hk
    rw [List.length_drop] at this
    simp at this
    omega
  have hrest : rest = [] := by
    cases rest with
    | nil => rfl
    | cons r rest' =>
      have hg := goodStack_drop hgood k
      rw [hk] at hg
      have h0 : 0 < cross r x x := hg.1
      rw [cross_right_self] at h0
      exact absurd h0 (lt_irrefl 0)
  subst hrest
  refine ⟨rfl, ?_⟩
  cases k with
  | zero => simpa using hk
  | succ k' =>
    exfalso
    have hk' : k' < s.length := by omega
    have hdrop : s.drop k' = s.get ⟨k', hk'⟩ :: s.drop (k' + 1) := List.drop_eq_getElem_cons hk'
    rw [hk] at hdrop
    have hg := goodStack_drop hgood k'
    rw [hdrop] at hg
    have h0 : 0 < cross x x (s.get ⟨k', hk'⟩) := hg.1
    rw [cross_left_self] at h0
    exact absurd h0 (lt_irrefl 0)

/-- Membership of the `getLastD` of a nonempty list. -/
lemma getLastD_mem : ∀ (s : List Point), s ≠ [] → ∀ d, s.getLastD d ∈ s := by
  intro s
  induction s with
  | nil => intro h; exact absurd rfl h
  | cons x s' ih =>
    intro _ d
    match s' with
    | [] => simp
    | y :: t =>
      rw [List.getLastD_cons]
      exact List.mem_cons_of_mem x (ih (by simp) x)

/-- Dropping preserves the last element of a list while it stays
nonempty. -/
lemma drop_getLastD : ∀ (k : Nat) (s : List Point) (d : Point), s.drop k ≠ [] →
    (s.drop k).getLastD d = s.getLastD d := by
  intro k
  induction k with
  | zero => intro s d _; rfl
  | succ k ih =>
    intro s d hne
    match s with
    | [] => simp at hne
    | x :: s' =>
      rw [List.drop_succ_cons] at hne ⊢
      rw [ih s' d hne, List.getLastD_cons]
      match s', hne with
      | [], hne => simp at hne
      | y :: t, _ => exact getLastD_irrel t y d x

/-- Invariant of the lower-chain loop: after processing the sorted prefix
`done`, the stack is nonempty, lexicographically ordered and strictly
convex, holds only processed points, every processed point is on or left
of every stack edge, is at or before the stack top and at or after the
stack bottom in the lexicographic order. -/
structure LowerInv (done s : List Point) : Prop where
  ne : s ≠ []
  ord : StackLe s
  good : GoodStack s
  mem : ∀ x ∈ s, x ∈ done
  edges : ∀ q ∈ done, EdgesOK q s
  top : ∀ q ∈ done, lexLe q (s.headD ⟨0, 0⟩)
  bot : ∀ q ∈ done, lexLe (s.getLastD ⟨0, 0⟩) q

/-- One step of the lower-chain loop preserves the invariant. -/
lemma lowerInv_step (done s : List Point) (p : Point)
    (hinv : LowerInv done s)
    (hp : ∀ q ∈ done, lexLe q p) :
    LowerInv (done ++ [p]) (p :: popChain 2 p s) := by
  obtain ⟨hne, hord, hgood, hmem, hedges, htop, hbot⟩ := hinv
  obtain ⟨k₀, hk₀⟩ := popChain_drop 2 p s
  have hs₁ne : popChain 2 p s ≠ [] := popChain_ne_nil hne
  have hordS₁ : StackLe (popChain 2 p s) := by rw [hk₀]; exact stackLe_drop hord k₀
  have hgoodS₁ : GoodStack (popChain 2 p s) := by rw [hk₀]; exact goodStack_drop hgood k₀
  have hmemS₁ : ∀ x ∈ popChain 2 p s, x ∈ done := fun x hx => hmem x (popChain_mem hx)
  have hples : ∀ x ∈ popChain 2 p s, lexLe x p := fun x hx => hp x (hmemS₁ x hx)
  have hstop : ∀ a b rest, popChain 2 p s = a :: b :: rest → 0 < cross b a p := by
    intro a b rest hres
    have h := popChain_top 2 p s a b rest hres
    push_neg at h
    exact h (by omega)
  have hboteq : (popChain 2 p s).getLastD ⟨0, 0⟩ = s.getLastD ⟨0, 0⟩ := by
    rw [hk₀]
    exact drop_getLastD k₀ s _ (by rw [← hk₀]; exact hs₁ne)
  have hcrux : ∀ q ∈ done, ∀ a rest, popChain 2 p s = a :: rest → 0 ≤ cross a p q := by
    intro q hq a rest hres
    rcases popChain_proper 2 p s a rest hres with hsame | ⟨e, k, hkd, hpop⟩
    · -- no pops: the stack is unchanged, `q` is at or before the old top `a`
      have hs_eq : s = a :: rest := by rw [← hsame, hres]
      have hqa : lexLe q a := by
        have := htop q hq
        rw [hs_eq] at this
        simpa using this
      cases rest with
      | nil =>
        have hbq : lexLe a q := by
          have := hbot q hq
          rw [hs_eq] at this
          simpa using this
        rw [lexLe_asymm hqa hbq]
        exact le_of_eq (cross_outer_self a p).symm
      | cons b rest' =>
        have hedge : 0 ≤ cross b a q := by
          have := hedges q hq
          rw [hs_eq] at this
          exact this.1
        have hba : lexLe b a := by
          have := hord
          rw [hs_eq] at this
          exact this.1
        have hap : lexLe a p := hples a (by rw [hres]; exact List.mem_cons_self _ _)
        exact cross_new_edge_left hba hqa hap hedge (hstop a b rest' hres)
    · -- pops happened: `e` sat directly above `a` and was popped last
      have hae : lexLe a e := by
        have := stackLe_drop hord k
        rw [hkd] at this
        exact this.1
      have hedge_ae : 0 ≤ cross a e q := by
        have := edgesOK_drop (hedges q hq) k
        rw [hkd] at this
        exact this.1
      by_cases heq_ea : e = a
      · rw [heq_ea] at hkd
        obtain ⟨hrest, hs_eq⟩ := dup_suffix hgood k hkd
        have hqa : lexLe q a := by
          have := htop q hq
          rw [hs_eq] at this
          simpa using this
        have haq : lexLe a q := by
          have := hbot q hq
          rw [hs_eq] at this
          simpa using this
        rw [lexLe_asymm hqa haq]
        exact le_of_eq (cross_outer_self a p).symm
      · rcases lexLe_total q a with hqa | haq
        · cases rest with
          | nil =>
            have hab : s.getLastD ⟨0, 0⟩ = a := by
              rw [← drop_getLastD k s _ (by rw [hkd]; simp), hkd]
              rfl
            have hbq : lexLe a q := by
              have := hbot q hq
              rw [hab] at this
              exact this
            rw [lexLe_asymm hqa hbq]
            exact le_of_eq (cross_outer_self a p).symm
          | cons b rest' =>
            have hedge : 0 ≤ cross b a q := by
              have := edgesOK_drop (hedges q hq) k
              rw [hkd] at this
              exact this.2.1
            have hba : lexLe b a := by
              have := stackLe_drop hord k
              rw [hkd] at this
              exact this.2.1
            have hap : lexLe a p := hples a (by rw [hres]; exact List.mem_cons_self _ _)
            exact cross_new_edge_left hba hqa hap hedge (hstop a b rest' hres)
        · exact cross_pop_above hae heq_ea
            (hples a (by rw [hres]; exact List.mem_cons_self _ _)) haq hedge_ae hpop
  refine ⟨by simp, ?_, goodStack_push₂ p s hgood, ?_, ?_, ?_, ?_⟩
  · match hres : popChain 2 p s, hs₁ne with
    | a :: rest, _ =>
      refine ⟨hples a (by rw [hres]; exact List.mem_cons_self _ _), ?_⟩
      rw [← hres]
      exact hordS₁
  · intro x hx
    rcases List.mem_cons.mp hx with hx | hx
    · subst hx; exact List.mem_append_right _ (List.mem_singleton_self _)
    · exact List.mem_append_left _ (hmemS₁ x hx)
  · intro q hq
    rcases List.mem_append.mp hq with hq | hq
    · match hres : popChain 2 p s, hs₁ne with
      | a :: rest, _ =>
        refine ⟨hcrux q hq a rest hres, ?_⟩
        rw [← hres, hk₀]
        exact edgesOK_drop (hedges q hq) k₀
    · rw [List.mem_singleton.mp hq]
      match hres : popChain 2 p s, hs₁ne with
      | a :: rest, _ =>
        refine ⟨le_of_eq (cross_right_self a p).symm, ?_⟩
        rw [← hres]
        exact edges_of_stack_p p _ hordS₁ hgoodS₁ hples hstop
  · intro q hq
    rcases List.mem_append.mp hq with hq | hq
    · simpa using hp q hq
    · rw [List.mem_singleton.mp hq]
      simpa using lexLe_refl p
  · intro q hq
    have hlast : (p :: popChain 2 p s).getLastD ⟨0, 0⟩ = s.getLastD ⟨0, 0⟩ := by
      rw [List.getLastD_cons, ← hboteq]
      match hres : popChain 2 p s, hs₁ne with
      | a :: rest, _ => exact getLastD_irrel rest a p ⟨0, 0⟩
    rw [hlast]
    rcases List.mem_append.mp hq with hq | hq
    · exact hbot q hq
    · rw [List.mem_singleton.mp hq]
      have hbm : s.getLastD ⟨0, 0⟩ ∈ done := hmem _ (getLastD_mem s hne ⟨0, 0⟩)
      exact hp _ hbm

/-- The lower-chain invariant after folding a sorted suffix. -/
lemma lowerInv_fold (todo : List Point) : ∀ (done s : List Point),
    LowerInv done s →
    List.Pairwise lexLe (done ++ todo) →
    LowerInv (done ++ todo) (buildChain 2 s todo) := by
  induction todo with
  | nil => intro done s hinv _; simpa using hinv
  | cons p todo' ih =>
    intro done s hinv hpair
    have hp : ∀ q ∈ done, lexLe q p := by
      intro q hq
      have := (List.pairwise_append.mp hpair).2.2
      exact this q hq p (List.mem_cons_self _ _)
    have hstep := lowerInv_step done s p hinv hp
    have hpair' : List.Pairwise lexLe ((done ++ [p]) ++ todo') := by
      rw [List.append_assoc]
      simpa using hpair
    have := ih (done ++ [p]) (p :: popChain 2 p s) hstep hpair'
    rw [List.append_assoc] at this
    simpa using this

/-- The lower-chain invariant for the full sorted input. -/
lemma lowerInv_main (l : List Point) (hl : l ≠ []) (hpair : List.Pairwise lexLe l) :
    LowerInv l (buildChain 2 [] l) := by
  match l, hl with
  | p :: ps, _ =>
    have hbase : LowerInv [p] [p] := by
      refine ⟨by simp, trivial, trivial, by simp, ?_, ?_, ?_⟩
      · intro q hq
        exact trivial
      · intro q hq
        rw [List.mem_singleton.mp hq]
        exact lexLe_refl p
      · intro q hq
        rw [List.mem_singleton.mp hq]
        exact lexLe_refl p
    have : buildChain 2 [] (p :: ps) = buildChain 2 [p] ps := by
      rw [buildChain]
      rfl
    rw [this]
    have := lowerInv_fold ps [p] [p] hbase (by simpa using hpair)
    simpa using this

/-- A stack shorter than the threshold is left untouched by the pop
loop. -/
lemma popChain_threshold (t : Nat) (p : Point) (s : List Point) (h : s.length < t) :
    popChain t p s = s := by
  match s with
  | [] => rfl
  | [a] => rfl
  | a :: b :: rest =>
    rw [popChain, if_neg]
    intro hc
    simp at h
    omega

/-- Invariant of the upper-chain loop: the lower chain `L` (with top `M`,
the lexicographic maximum) is frozen below the threshold; above it the
upper part `U` holds processed points, all at or before `M`, and the
stack `U ++ [M]` is strictly convex — every stack triple except the one
spanning into the second element of `L` is a strict left turn. -/
structure UpperInv (S L U : List Point) : Prop where
  mem : ∀ x ∈ U, x ∈ S
  le : ∀ x ∈ U, lexLe x (L.headD ⟨0, 0⟩)
  good : GoodStack (U ++ [L.headD ⟨0, 0⟩])

/-- Pops with threshold `|L| + 1` never reach into `L`. -/
lemma popChain_split (t : Nat) (p : Point) (L : List Point) (hL : L.length < t) :
    ∀ U : List Point, ∃ k, popChain t p (U ++ L) = U.drop k ++ L := by
  intro U
  induction U with
  | nil => exact ⟨0, by simpa using popChain_threshold t p L hL⟩
  | cons u U₀ ih =>
    rcases hUL : U₀ ++ L with _ | ⟨b, rest⟩
    · obtain ⟨hU₀, hL0⟩ := List.append_eq_nil.mp hUL
      subst hU₀
      subst hL0
      exact ⟨0, by simp [popChain]⟩
    · have hcons : (u :: U₀) ++ L = u :: b :: rest := by
        rw [List.cons_append, hUL]
      rw [hcons, popChain]
      split
      · obtain ⟨k, hk⟩ := ih
        rw [hUL] at hk
        exact ⟨k + 1, hk⟩
      · exact ⟨0, by simp [hUL]⟩

/-- One step of the upper-chain loop: the pops stay above `L`, and the
push preserves the upper invariant (the freshly created top triple is
justified by the stop condition of the pop loop; when the push lands
directly on `L`, the new junction pair creates no triple inside
`U ++ [M]`). -/
lemma upperInv_step (S L : List Point) (hlen2 : 2 ≤ L.length)
    (U : List Point) (p : Point)
    (hinv : UpperInv S L U) (hpS : p ∈ S) (hpM : lexLe p (L.headD ⟨0, 0⟩)) :
    ∃ U', (∃ k, U' = U.drop k) ∧
      p :: popChain (L.length + 1) p (U ++ L) = (p :: U') ++ L ∧
      UpperInv S L (p :: U') := by
  obtain ⟨k, hk⟩ := popChain_split (L.length + 1) p L (by omega) U
  refine ⟨U.drop k, ⟨k, rfl⟩, by rw [hk]; rfl, ?_, ?_, ?_⟩
  · intro x hx
    rcases List.mem_cons.mp hx with hx | hx
    · subst hx; exact hpS
    · exact hinv.mem x (List.mem_of_mem_drop hx)
  · intro x hx
    rcases List.mem_cons.mp hx with hx | hx
    · subst hx; exact hpM
    · exact hinv.le x (List.mem_of_mem_drop hx)
  · have hdropU : U.drop k ++ [L.headD ⟨0, 0⟩] = (U ++ [L.headD ⟨0, 0⟩]).drop k ∨
        U.drop k = [] := by
      by_cases hkU : k ≤ U.length
      · exact Or.inl (List.drop_append_of_le_length hkU).symm
      · exact Or.inr (List.drop_eq_nil_of_le (by omega))
    rcases hU' : U.drop k with _ | ⟨u₁, U''⟩
    · exact trivial
    · have hgoodU' : GoodStack (U.drop k ++ [L.headD ⟨0, 0⟩]) := by
        rcases hdropU with h | h
        · rw [h]; exact goodStack_drop hinv.good k
        · rw [h] at hU'; cases hU'
      rcases hL : L with _ | ⟨M, L'⟩
      · rw [hL] at hlen2; simp at hlen2
      rcases hU'' : U'' with _ | ⟨u₂, U₃⟩
      · -- push lands with exactly one upper element: triple (p, u₁, M)
        have hshape : popChain (L.length + 1) p (U ++ L) = u₁ :: M :: L' := by
          rw [hk, hU', hU'', hL]
          rfl
        have htop := popChain_top (L.length + 1) p (U ++ L) u₁ M L' hshape
        push_neg at htop
        have hlt : 0 < cross M u₁ p := htop (by rw [hL]; simp)
        refine ⟨?_, trivial⟩
        simpa [hL] using hlt
      · -- at least two upper elements: triple (p, u₁, u₂)
        have hshape : popChain (L.length + 1) p (U ++ L) = u₁ :: u₂ :: (U₃ ++ L) := by
          rw [hk, hU', hU'']
          rfl
        have htop := popChain_top (L.length + 1) p (U ++ L) u₁ u₂ (U₃ ++ L) hshape
        push_neg at htop
        have hlt : 0 < cross u₂ u₁ p := htop (by simp; omega)
        refine ⟨hlt, ?_⟩
        have hrw : List.drop k U ++ [L.headD ⟨0, 0⟩] =
            u₁ :: u₂ :: (U₃ ++ [L.headD ⟨0, 0⟩]) := by
          rw [hU', hU'']
          rfl
        rw [hrw, hL] at hgoodU'
        exact hgoodU'

/-- The upper-chain invariant after folding the remaining points. -/
lemma upperInv_fold (S L : List Point) (hlen2 : 2 ≤ L.length) :
    ∀ (R U : List Point), UpperInv S L U →
    (∀ p ∈ R, p ∈ S) → (∀ p ∈ R, lexLe p (L.headD ⟨0, 0⟩)) →
    ∃ U', UpperInv S L U' ∧
      buildChain (L.length + 1) (U ++ L) R = U' ++ L ∧
      (R ≠ [] → U' ≠ []) := by
  intro R
  induction R with
  | nil =>
    intro U hinv _ _
    exact ⟨U, hinv, rfl, fun h => absurd rfl h⟩
  | cons p R' ih =>
    intro U hinv hS hM
    obtain ⟨U₁, ⟨k, hkU⟩, hstack, hinv₁⟩ :=
      upperInv_step S L hlen2 U p hinv (hS p (List.mem_cons_self _ _))
        (hM p (List.mem_cons_self _ _))
    have hbc : buildChain (L.length + 1) (U ++ L) (p :: R') =
        buildChain (L.length + 1) ((p :: U₁) ++ L) R' := by
      rw [buildChain, hstack]
    obtain ⟨U', hinv', heq, hne⟩ := ih (p :: U₁) hinv₁
      (fun q hq => hS q (List.mem_cons_of_mem _ hq))
      (fun q hq => hM q (List.mem_cons_of_mem _ hq))
    refine ⟨U', hinv', by rw [hbc, heq], fun _ => ?_⟩
    rcases hR' : R' with _ | ⟨r, R''⟩
    · rw [hR'] at heq
      have : U' = p :: U₁ := by
        rw [hR'] at hbc
        have h1 : buildChain (L.length + 1) ((p :: U₁) ++ L) [] = (p :: U₁) ++ L := rfl
        have h2 : (p :: U₁) ++ L = U' ++ L := by rw [← h1, heq]
        exact (List.append_cancel_right h2).symm
      rw [this]
      simp
    · exact hne (by rw [hR']; simp)

/-- Every three consecutive points of the list make a strict left turn
(positive cross product).  For the hull output this is the
counter-clockwise ordering property, and in particular it rules out three
consecutive collinear vertices. -/
def CCWConsec : List Point → Prop
  | a :: b :: c :: rest => 0 < cross a b c ∧ CCWConsec (b :: c :: rest)
  | _ => True

/-- Extending a consecutively-left-turning list by one point, given the
turn across the last two elements. -/
lemma ccwConsec_append_one (x : Point) : ∀ (l : List Point),
    CCWConsec l → (∀ pre u v, l = pre ++ [u, v] → 0 < cross u v x) →
    CCWConsec (l ++ [x]) := by
  intro l
  induction l with
  | nil => intros; trivial
  | cons a l' ih =>
    intro hl hlast
    match l' with
    | [] => trivial
    | [b] => exact ⟨hlast [] a b rfl, trivial⟩
    | b :: c :: l'' =>
      refine ⟨hl.1, ?_⟩
      apply ih hl.2
      intro pre u v heq
      exact hlast (a :: pre) u v (by rw [List.cons_append, heq])

/-- A strictly convex stack, read in chain order (reversed), turns
strictly left at every interior vertex. -/
lemma goodStack_reverse : ∀ s : List Point, GoodStack s → CCWConsec s.reverse := by
  intro s
  induction s with
  | nil => intros; trivial
  | cons x s' ih =>
    intro hg
    rw [List.reverse_cons]
    apply ccwConsec_append_one x s'.reverse (ih (goodStack_tail hg))
    intro pre u v heq
    have hs' : s' = v :: u :: pre.reverse := by
      have h := congrArg List.reverse heq
      rw [List.reverse_reverse] at h
      rw [h]
      simp
    rw [hs'] at hg
    exact hg.1

/-- Gluing the upper part onto the lower chain: all stack triples are
justified by the two partial convexity facts plus the junction triple. -/
lemma goodStack_append_lower (M : Point) (L₂ : List Point) :
    ∀ A : List Point, GoodStack (M :: L₂) → GoodStack (A ++ [M]) →
    (∀ l₂ L₃, L₂ = l₂ :: L₃ → ∀ pre u, A = pre ++ [u] → 0 < cross l₂ M u) →
    GoodStack (A ++ (M :: L₂)) := by
  intro A
  induction A with
  | nil => intro hL _ _; exact hL
  | cons a A' ih =>
    intro hL hAM hjunc
    match A' with
    | [] =>
      match L₂ with
      | [] => exact trivial
      | l₂ :: L₃ =>
        exact ⟨hjunc l₂ L₃ rfl [] a rfl, hL⟩
    | [a'] =>
      refine ⟨hAM.1, ?_⟩
      apply ih hL (by exact goodStack_tail hAM)
      intro l₂ L₃ hL₂ pre u hdec
      rcases pre with _ | ⟨p, pre'⟩
      · injection hdec with h1 _
        exact hjunc l₂ L₃ hL₂ [a] u (by rw [h1]; rfl)
      · rw [List.cons_append] at hdec
        injection hdec with _ h2
        exact absurd h2.symm (by simp)
    | a' :: a'' :: A'' =>
      refine ⟨hAM.1, ?_⟩
      apply ih hL (goodStack_tail hAM)
      intro l₂ L₃ hL₂ pre u hdec
      exact hjunc l₂ L₃ hL₂ (a :: pre) u (by rw [List.cons_append, hdec])

/-- With at least two input points the lower chain keeps at least two
entries. -/
lemma buildChain_two : ∀ (todo acc : List Point), acc ≠ [] → todo ≠ [] →
    2 ≤ (buildChain 2 acc todo).length := by
  intro todo
  induction todo with
  | nil => intro acc _ h; exact absurd rfl h
  | cons p todo' ih =>
    intro acc hacc _
    match todo' with
    | [] =>
      show 2 ≤ (p :: popChain 2 p acc).length
      have := popChain_ne_nil (t := 2) (p := p) hacc
      match h : popChain 2 p acc with
      | [] => exact absurd h this
      | _ :: _ => simp [h]
    | q :: todo'' =>
      exact ih (p :: popChain 2 p acc) (by simp) (by simp)

/-- Strict positivity of the junction triple `(l₂, M, u)` in the final
stack: the point `u` sits on or left of the last lower edge; if it were
exactly on its line, the strict left turn `(M, u, w)` recorded for the
upper element `w` above it would put `w` strictly right of that edge,
contradicting the lower invariant. -/
lemma junction_pos (S : List Point) (M l₂ : Point) (L₃ : List Point) (U : List Point)
    (hlow : LowerInv S (M :: l₂ :: L₃))
    (hup : UpperInv S (M :: l₂ :: L₃) U) :
    ∀ pre₂ w u, U = pre₂ ++ [w, u] → 0 < cross l₂ M u := by
  intro pre₂ w u hU
  have huU : u ∈ U := by rw [hU]; simp
  have hwU : w ∈ U := by rw [hU]; simp
  have huS : u ∈ S := hup.mem u huU
  have hwS : w ∈ S := hup.mem w hwU
  have huM : lexLe u M := by simpa using hup.le u huU
  have hwM : lexLe w M := by simpa using hup.le w hwU
  have htri : 0 < cross M u w := by
    have hg := hup.good
    rw [hU] at hg
    have hdrop : ((pre₂ ++ [w, u]) ++ [(M :: l₂ :: L₃).headD ⟨0, 0⟩]).drop pre₂.length
        = [w, u, M] := by simp
    have h2 := goodStack_drop hg pre₂.length
    rw [hdrop] at h2
    exact h2.1
  have hl₂M : lexLe l₂ M := hlow.ord.1
  have hDu : 0 ≤ cross l₂ M u := (hlow.edges u huS).1
  have hDw : 0 ≤ cross l₂ M w := (hlow.edges w hwS).1
  rcases lt_or_eq_of_le hDu with h | h
  · exact h
  · exfalso
    by_cases hne : l₂ = M
    · have hdup := dup_suffix (x := M) hlow.good 0 (by rw [List.drop_zero, hne])
      obtain ⟨hL₃, hs_eq⟩ := hdup
      have hallM : ∀ q ∈ S, q = M := by
        intro q hq
        have h1 := hlow.top q hq
        have h2 := hlow.bot q hq
        rw [hs_eq] at h2
        simp only [List.headD_cons] at h1
        simp only [List.getLastD] at h2
        exact lexLe_asymm h1 h2
      rw [hallM u huS, hallM w hwS, cross_right_self] at htri
      exact absurd htri (lt_irrefl 0)
    · exact absurd htri (not_lt.mpr (collinear_flip hl₂M huM hwM hne h.symm hDw))

/-- Assembled convexity of the final stack `U'.tail ++ L` (upper part minus
its duplicated first point, glued on the full lower chain). -/
lemma final_good (S L U' : List Point) (hlow : LowerInv S L) (hup : UpperInv S L U')
    (hLlen : 2 ≤ L.length) (hU'ne : U' ≠ []) :
    GoodStack (U'.tail ++ L) := by
  match L, hLlen, hlow, hup with
  | M :: l₂ :: L₃, _, hlow, hup =>
    match U', hU'ne, hup with
    | u₀ :: U'', _, hup =>
      show GoodStack (U'' ++ (M :: l₂ :: L₃))
      apply goodStack_append_lower M (l₂ :: L₃) U'' hlow.good
      · have hg := hup.good
        simp only [List.headD_cons] at hg
        exact goodStack_tail hg
      · intro l₂' L₃' hL₂ pre u hdec
        injection hL₂ with h1 _
        subst h1
        have hne2 : u₀ :: pre ≠ [] := by simp
        have hkey : u₀ :: U'' =
            (u₀ :: pre).dropLast ++ [(u₀ :: pre).getLast hne2, u] := by
          rw [hdec, ← List.cons_append]
          conv_lhs => rw [← List.dropLast_append_getLast hne2]
          rw [List.append_assoc]
          rfl
        exact junction_pos S M l₂ L₃ (u₀ :: U'') hlow hup
          ((u₀ :: pre).dropLast) ((u₀ :: pre).getLast hne2) u hkey

/-- C5: for every finite input sequence, every vertex output by
`compute_convex_hull_deque` occurs in the input, and the output is in
counter-clockwise order with a strict left turn at every consecutive
triple of vertices, so in particular no three consecutive output vertices
are collinear (collinear points are popped by the `cross ≤ 0` test). -/
theorem c5_hull_subset_ccw (ps : List Point) :
    (∀ q ∈ compute_convex_hull_deque ps, q ∈ ps) ∧
    CCWConsec (compute_convex_hull_deque ps) := by
  by_cases hsmall : ps.length ≤ 1
  · have hps : compute_convex_hull_deque ps = ps := by
      unfold compute_convex_hull_deque
      rw [if_pos hsmall]
    rw [hps]
    refine ⟨fun q hq => hq, ?_⟩
    match ps, hsmall with
    | [], _ => exact trivial
    | [a], _ => exact trivial
  · obtain ⟨S, hSdef⟩ : ∃ S, S = List.insertionSort lexLe ps := ⟨_, rfl⟩
    have hperm : S.Perm ps := by rw [hSdef]; exact List.perm_insertionSort lexLe ps
    have hSlen : 2 ≤ S.length := by rw [hperm.length_eq]; omega
    have hSne : S ≠ [] := by intro h; rw [h] at hSlen; simp at hSlen
    have hpair : List.Pairwise lexLe S := by
      rw [hSdef]; exact List.sorted_insertionSort lexLe ps
    obtain ⟨L, hLdef⟩ : ∃ L, L = buildChain 2 [] S := ⟨_, rfl⟩
    have hlow : LowerInv S L := by rw [hLdef]; exact lowerInv_main S hSne hpair
    have hLlen : 2 ≤ L.length := by
      rw [hLdef]
      match S, hSne, hSlen with
      | s₁ :: srest, _, hSlen2 =>
        have hrest : srest ≠ [] := by
          intro h; rw [h] at hSlen2; simp at hSlen2
        have hstep : buildChain 2 [] (s₁ :: srest) = buildChain 2 [s₁] srest := by
          simp [buildChain, popChain]
        rw [hstep]
        exact buildChain_two srest [s₁] (by simp) hrest
    obtain ⟨R, hRdef⟩ : ∃ R, R = S.dropLast.reverse := ⟨_, rfl⟩
    have hRS : ∀ p ∈ R, p ∈ S := by
      intro p hp
      rw [hRdef, List.mem_reverse] at hp
      exact List.mem_of_mem_dropLast hp
    have hRM : ∀ p ∈ R, lexLe p (L.headD ⟨0, 0⟩) := fun p hp => hlow.top p (hRS p hp)
    have hup0 : UpperInv S L [] := by
      refine ⟨by simp, by simp, ?_⟩
      show GoodStack [L.headD ⟨0, 0⟩]
      exact trivial
    have hRne : R ≠ [] := by
      rw [hRdef]
      intro h
      have hlen := congrArg List.length h
      simp [List.length_dropLast] at hlen
      omega
    obtain ⟨U', hup, heq, hneU⟩ := upperInv_fold S L hLlen R [] hup0 hRS hRM
    have hU'ne : U' ≠ [] := hneU hRne
    have hfull : compute_convex_hull_deque ps = (U'.tail ++ L).reverse := by
      unfold compute_convex_hull_deque
      rw [if_neg hsmall]
      dsimp only
      rw [← hSdef, ← hLdef, ← hRdef]
      have h2 : buildChain (L.length + 1) L R = U' ++ L := by simpa using heq
      rw [h2]
      match U', hU'ne with
      | u₀ :: U'', _ => rfl
    constructor
    · intro q hq
      rw [hfull, List.mem_reverse, List.mem_append] at hq
      have hqS : q ∈ S := by
        rcases hq with hq | hq
        · exact hup.mem q (List.mem_of_mem_tail hq)
        · exact hlow.mem q hq
      exact hperm.subset hqS
    · rw [hfull]
      exact goodStack_reverse _ (final_good S L U' hlow hup hLlen hU'ne)
